import Mathlib

/-!
# Verification of the UltraBalancer load-balancer core

A shallow embedding, in Lean 4, of the decision core of the UltraBalancer
load balancer: the backend-selection strategies (round robin, smooth
weighted round robin, least connections, IP-hash sticky routing), the
per-backend circuit breaker, the rate limiters (token bucket, sliding
window) and the per-backend connection pool.

Conventions used throughout the embedding:

* Wall-clock time (`time.time()`) is passed explicitly as a rational
  `now : ℚ`; Python floats are modelled as `ℚ`.
* Python `dict`s are modelled as association lists with the dict's
  insertion-order semantics (first matching key wins on lookup).
* Methods that mutate `self` become functions `State → … → Result × State`.
* A statement raising a Python exception is modelled with `Except`.
* Locks are dropped: every Python method body runs under its object's
  single lock, so the sequential semantics embedded here is exactly the
  per-operation semantics of the source.
-/

/-! ## Association-list model of Python dicts (string keys) -/

/-- Dict lookup: first pair with the given key. -/
def alookup {β : Type} (l : List (String × β)) (k : String) : Option β :=
  (l.find? (fun p => p.1 == k)).map (·.2)

/-- Dict assignment `d[k] = v`: replace the entry if the key is present,
otherwise append (insertion order). -/
def aset {β : Type} (l : List (String × β)) (k : String) (v : β) :
    List (String × β) :=
  if (l.find? (fun p => p.1 == k)).isSome then
    l.map (fun p => if p.1 == k then (k, v) else p)
  else
    l ++ [(k, v)]

/-- Dict deletion `del d[k]`. -/
def aerase {β : Type} (l : List (String × β)) (k : String) :
    List (String × β) :=
  l.filter (fun p => ¬ p.1 == k)

/-- Lookup in a counter dict defaulting to `0`, the read behaviour of
Python's `defaultdict(int)`. -/
def alookup0 (l : List (String × ℕ)) (k : String) : ℕ :=
  ((l.find? (fun p => p.1 == k)).map (·.2)).getD 0

theorem find_setmap_ne {β : Type} (l : List (String × β)) (k k' : String)
    (v : β) (h : k' ≠ k) :
    (l.map (fun p => if p.1 == k then (k, v) else p)).find?
        (fun p => p.1 == k') =
      l.find? (fun p => p.1 == k') := by
  induction l with
  | nil => rfl
  | cons p rest ih =>
    by_cases hp : p.1 = k
    · have h1 : (if p.1 == k then (k, v) else p) = (k, v) := by simp [hp]
      simp only [List.map_cons, h1]
      rw [List.find?_cons_of_neg _ (by simpa using Ne.symm (by exact h)),
        List.find?_cons_of_neg _ (by simp [hp]; exact fun hc => h (hc ▸ hp ▸ rfl))]
      exact ih
    · have h1 : (if p.1 == k then (k, v) else p) = p := by simp [hp]
      simp only [List.map_cons, h1]
      by_cases hp' : p.1 = k'
      · rw [List.find?_cons_of_pos _ (by simp [hp']),
          List.find?_cons_of_pos _ (by simp [hp'])]
      · rw [List.find?_cons_of_neg _ (by simp [hp']),
          List.find?_cons_of_neg _ (by simp [hp'])]
        exact ih

theorem find_setmap_eq {β : Type} (l : List (String × β)) (k : String)
    (v : β) (hmem : (l.find? (fun p => p.1 == k)).isSome) :
    (l.map (fun p => if p.1 == k then (k, v) else p)).find?
        (fun p => p.1 == k) = some (k, v) := by
  induction l with
  | nil => simp [List.find?] at hmem
  | cons p rest ih =>
    by_cases hp : p.1 = k
    · have h1 : (if p.1 == k then (k, v) else p) = (k, v) := by simp [hp]
      simp only [List.map_cons, h1]
      rw [List.find?_cons_of_pos _ (by simp)]
    · have h1 : (if p.1 == k then (k, v) else p) = p := by simp [hp]
      rw [List.find?_cons_of_neg _ (by simp [hp])] at hmem
      simp only [List.map_cons, h1]
      rw [List.find?_cons_of_neg _ (by simp [hp])]
      exact ih hmem

theorem alookup_aset {β : Type} (l : List (String × β)) (k k' : String)
    (v : β) :
    alookup (aset l k v) k' = if k' = k then some v else alookup l k' := by
  unfold alookup aset
  by_cases hmem : (l.find? (fun p => p.1 == k)).isSome
  · simp only [hmem, if_true]
    by_cases hk' : k' = k
    · subst hk'
      rw [find_setmap_eq l k' v hmem]
      simp
    · rw [find_setmap_ne l k k' v hk']
      simp [hk']
  · rw [if_neg hmem, List.find?_append]
    by_cases hk' : k' = k
    · subst hk'
      simp only [Option.not_isSome_iff_eq_none] at hmem
      simp [hmem, List.find?]
    · have h2 : (List.find? (fun p => p.1 == k') [(k, v)]) = none := by
        have : (k == k') = false := by
          simpa using Ne.symm hk'
        simp [List.find?, this]
      cases hfind : l.find? (fun p => p.1 == k') <;> simp [h2, hfind, hk']

theorem alookup_aerase_ne {β : Type} (l : List (String × β))
    (b : β) (h : ∀ p ∈ l, p.2 ≠ b) (k' : String) :
    alookup l k' ≠ some b := by
  unfold alookup
  cases hfind : l.find? (fun p => p.1 == k') with
  | none => simp
  | some p =>
    have hp : p ∈ l := List.mem_of_find?_eq_some hfind
    simpa using (h p hp)

/-! ## Round Robin (`src/plugins/round_robin.py`)

`RoundRobinAlgorithm` keeps one field, `current_index`.  `select_server`
reads `servers[self.current_index]` *before* reducing the index modulo
`len(servers)`, so an out-of-range stored index raises `IndexError`
(modelled as `Except.error ()`); the index field is updated only after a
successful access. -/

namespace RoundRobin

structure RRState where
  current_index : ℕ
deriving DecidableEq, Repr

/-- `RoundRobinAlgorithm.select_server`.  Returns the Python result
(`IndexError` / `None` / the selected server) together with the state
after the call. -/
def select_server {α : Type} (st : RRState) (servers : List α) :
    Except Unit (Option α) × RRState :=
  if servers.isEmpty then
    (Except.ok none, st)
  else if h : st.current_index < servers.length then
    (Except.ok (some (servers.get ⟨st.current_index, h⟩)),
      ⟨(st.current_index + 1) % servers.length⟩)
  else
    (Except.error (), st)

end RoundRobin

/-! ## Least Connections (`src/plugins/least_connections.py`)

`LeastConnectionsAlgorithm` keeps a server list and a
`defaultdict(int)` of active-connection counts.  The selection loop
starts from `min_connections = inf`, keeps the first strict improvement,
and afterwards increments the chosen server's counter — guarded by the
Python truthiness test `if selected_server:`, which is `False` for the
empty string. -/

namespace LeastConnections

structure LCState where
  servers : List String
  connections : List (String × ℕ)
deriving DecidableEq, Repr

/-- The body of the `for server in self.servers:` scan, carried out from
an already-initialised best `(m, s)` (the Python loop's first iteration
always initialises, since every count is `< inf`). -/
def runMin (conns : List (String × ℕ)) (m : ℕ) (s : String) :
    List String → ℕ × String
  | [] => (m, s)
  | x :: xs =>
    if alookup0 conns x < m then runMin conns (alookup0 conns x) x xs
    else runMin conns m s xs

/-- `LeastConnectionsAlgorithm.get_next_server`. -/
def get_next_server (st : LCState) : Option String × LCState :=
  match st.servers with
  | [] => (none, st)
  | v :: rest =>
    let best := runMin st.connections (alookup0 st.connections v) v rest
    let selected := best.2
    -- `if selected_server:` — Python truthiness, false for `""`
    if selected ≠ "" then
      (some selected,
        { st with
          connections :=
            aset st.connections selected (alookup0 st.connections selected + 1) })
    else
      (some selected, st)

/-- `LeastConnectionsAlgorithm.release_connection`:
`if server in self.connections and self.connections[server] > 0: -= 1`. -/
def release_connection (st : LCState) (server : String) : LCState :=
  if 0 < alookup0 st.connections server then
    { st with
      connections :=
        aset st.connections server (alookup0 st.connections server - 1) }
  else
    st

end LeastConnections

/-! ## Claims about Round Robin (C2) -/

/-- C2, counterexample: with stored `current_index = 1` (left behind by a
longer server list) and a single eligible server, the source evaluates
`servers[self.current_index]` *before* any modulo reduction, raising
`IndexError` — it does not return `eligible[1 mod 1] = eligible[0]` and it
does throw. -/
theorem C2_rr_counterexample :
    (RoundRobin.select_server ⟨1⟩ ["a"]).1 = Except.error () ∧
      (RoundRobin.select_server ⟨1⟩ ["a"]).1 ≠ Except.ok (some "a") := by
  constructor
  · rfl
  · intro h
    simp [RoundRobin.select_server] at h

/-- C2 (amended): when the eligible list is empty, `select_server` returns
the explicit no-backend result `None` without raising; when
`current_index < len(eligible)` (which holds in particular whenever the
index was produced against a list of the same length) it returns the
element at position `current_index mod len(eligible)` and advances the
index to `(current_index + 1) mod len`; but when the stored index is out
of range for a non-empty list, the call raises `IndexError` (rather than
reducing the index modulo the length) and leaves the index unchanged. -/
theorem C2_rr_amended {α : Type} (st : RoundRobin.RRState)
    (servers : List α) :
    (servers = [] →
      RoundRobin.select_server st servers = (Except.ok none, st)) ∧
    (st.current_index < servers.length →
      (RoundRobin.select_server st servers).1 =
        Except.ok (servers[st.current_index % servers.length]?) ∧
      (RoundRobin.select_server st servers).2 =
        ⟨(st.current_index + 1) % servers.length⟩) ∧
    (servers ≠ [] → servers.length ≤ st.current_index →
      RoundRobin.select_server st servers = (Except.error (), st)) := by
  refine ⟨fun h => ?_, fun h => ?_, fun h1 h2 => ?_⟩
  · subst h; rfl
  · have hne : servers.isEmpty = false := by
      cases servers with
      | nil => simp at h
      | cons a t => rfl
    rw [Nat.mod_eq_of_lt h]
    have hsel : RoundRobin.select_server st servers =
        (Except.ok (some (servers.get ⟨st.current_index, h⟩)),
          ⟨(st.current_index + 1) % servers.length⟩) := by
      unfold RoundRobin.select_server
      rw [hne]
      simp only [Bool.false_eq_true, if_false]
      rw [dif_pos h]
    rw [hsel]
    refine ⟨?_, rfl⟩
    rw [List.getElem?_eq_getElem h]
    rfl
  · have hne : servers.isEmpty = false := by
      cases servers with
      | nil => exact absurd rfl h1
      | cons a t => rfl
    unfold RoundRobin.select_server
    rw [hne]
    simp only [Bool.false_eq_true, if_false]
    rw [dif_neg (by omega)]

/-- Witness for C2 (amended) at a concrete input. -/
theorem C2_rr_witness :
    (RoundRobin.select_server ⟨0⟩ ["a", "b"]).1 = Except.ok (some "a") := by
  have h := ((C2_rr_amended ⟨0⟩ ["a", "b"]).2.1 (by decide)).1
  simpa using h

/-! ## Claims about Least Connections (C6) -/

namespace LeastConnections

theorem alookup0_eq (l : List (String × ℕ)) (k : String) :
    alookup0 l k = (alookup l k).getD 0 := rfl

theorem alookup0_aset (l : List (String × ℕ)) (k k' : String) (v : ℕ) :
    alookup0 (aset l k v) k' = if k' = k then v else alookup0 l k' := by
  rw [alookup0_eq, alookup_aset]
  by_cases h : k' = k <;> simp [h, alookup0_eq]

/-- Characterisation of the selection scan: the result is the running
minimum with first-occurrence tie-breaking. -/
theorem runMin_spec (conns : List (String × ℕ)) :
    ∀ (l : List String) (m : ℕ) (s : String), alookup0 conns s = m →
    alookup0 conns (runMin conns m s l).2 = (runMin conns m s l).1 ∧
    (runMin conns m s l).1 ≤ m ∧
    (∀ x ∈ l, (runMin conns m s l).1 ≤ alookup0 conns x) ∧
    (runMin conns m s l = (m, s) ∨
      ∃ l1 l2, l = l1 ++ (runMin conns m s l).2 :: l2 ∧
        (∀ x ∈ l1, (runMin conns m s l).1 < alookup0 conns x) ∧
        (runMin conns m s l).1 < m) := by
  intro l
  induction l with
  | nil =>
    intro m s hs
    exact ⟨hs, le_refl m, by intro x hx; simp at hx, Or.inl rfl⟩
  | cons x xs ih =>
    intro m s hs
    by_cases hx : alookup0 conns x < m
    · have hrw : runMin conns m s (x :: xs) =
        runMin conns (alookup0 conns x) x xs := by
        rw [runMin]; rw [if_pos hx]
      obtain ⟨h1, h2, h3, h4⟩ := ih (alookup0 conns x) x rfl
      rw [hrw]
      refine ⟨h1, le_trans h2 (le_of_lt hx), ?_, ?_⟩
      · intro y hy
        rcases List.mem_cons.mp hy with hy | hy
        · exact hy ▸ h2
        · exact h3 y hy
      · rcases h4 with h4 | ⟨l1, l2, hsplit, hl1, hlt⟩
        · right
          refine ⟨[], xs, ?_, ?_, ?_⟩
          · rw [h4]; rfl
          · intro y hy; simp at hy
          · rw [h4]; exact hx
        · right
          refine ⟨x :: l1, l2, ?_, ?_, ?_⟩
          · rw [List.cons_append, ← hsplit]
          · intro y hy
            rcases List.mem_cons.mp hy with hy | hy
            · exact hy ▸ hlt
            · exact hl1 y hy
          · exact lt_trans hlt hx
    · have hrw : runMin conns m s (x :: xs) = runMin conns m s xs := by
        rw [runMin]; rw [if_neg hx]
      obtain ⟨h1, h2, h3, h4⟩ := ih m s hs
      rw [hrw]
      refine ⟨h1, h2, ?_, ?_⟩
      · intro y hy
        rcases List.mem_cons.mp hy with hy | hy
        · exact hy ▸ le_trans h2 (le_of_not_lt hx)
        · exact h3 y hy
      · rcases h4 with h4 | ⟨l1, l2, hsplit, hl1, hlt⟩
        · exact Or.inl h4
        · right
          refine ⟨x :: l1, l2, ?_, ?_, hlt⟩
          · rw [List.cons_append, ← hsplit]
          · intro y hy
            rcases List.mem_cons.mp hy with hy | hy
            · exact hy ▸ lt_of_lt_of_le hlt (le_of_not_lt hx)
            · exact hl1 y hy

end LeastConnections

namespace LeastConnections

/-- `release_connection` always maps the count to its truncated
predecessor: a decrement floored at zero. -/
theorem release_connection_count (st : LCState) (server : String) :
    alookup0 (release_connection st server).connections server
      = alookup0 st.connections server - 1 := by
  unfold release_connection
  by_cases h : 0 < alookup0 st.connections server
  · rw [if_pos h]
    simp [alookup0_aset]
  · rw [if_neg h]
    omega

end LeastConnections

/-- C6, counterexample: with the (non-empty) server list `[""]` the scan
selects the empty-string server, but the increment is guarded by the
Python truthiness test `if selected_server:`, which is false for `""` —
so its count stays `0` instead of being incremented by exactly `1`. -/
theorem C6_lc_counterexample :
    (LeastConnections.get_next_server ⟨[""], []⟩).1 = some "" ∧
      alookup0 (LeastConnections.get_next_server ⟨[""], []⟩).2.connections ""
        = 0 := by
  constructor <;> rfl

/-- C6 (amended): for a non-empty server list containing no empty-string
identifier, `get_next_server` returns the server with the minimum
active-connection count (ties broken by first occurrence: every server
listed before the winner has a strictly larger count), increments exactly
that server's count by `1`, and leaves every other count unchanged;
`release_connection` maps a count to its decrement floored at zero, so
releasing more times than selecting leaves the count at `0`. -/
theorem C6_lc_amended (st : LeastConnections.LCState)
    (hne : st.servers ≠ []) (hids : "" ∉ st.servers) :
    (∃ s, (LeastConnections.get_next_server st).1 = some s ∧
      (∃ l1 l2, st.servers = l1 ++ s :: l2 ∧
        ∀ x ∈ l1, alookup0 st.connections s < alookup0 st.connections x) ∧
      (∀ x ∈ st.servers,
        alookup0 st.connections s ≤ alookup0 st.connections x) ∧
      alookup0 (LeastConnections.get_next_server st).2.connections s
        = alookup0 st.connections s + 1 ∧
      (∀ t, t ≠ s →
        alookup0 (LeastConnections.get_next_server st).2.connections t
          = alookup0 st.connections t)) ∧
    (∀ (st' : LeastConnections.LCState) (server : String),
      alookup0 (LeastConnections.release_connection st' server).connections
          server
        = alookup0 st'.connections server - 1) := by
  refine ⟨?_, fun st' server =>
    LeastConnections.release_connection_count st' server⟩
  obtain ⟨servers, conns⟩ := st
  cases hser : servers with
  | nil => exact absurd (by simpa using hser) hne
  | cons v rest =>
  subst hser
  simp only at hne hids ⊢
  obtain ⟨h1, h2, h3, h4⟩ :=
    LeastConnections.runMin_spec conns rest (alookup0 conns v) v rfl
  set best := LeastConnections.runMin conns (alookup0 conns v) v rest
    with hbest
  have hsplit : ∃ l1 l2, v :: rest = l1 ++ best.2 :: l2 ∧
      ∀ x ∈ l1, best.1 < alookup0 conns x := by
    rcases h4 with h4 | ⟨l1, l2, hs, hl, hm⟩
    · refine ⟨[], rest, ?_, ?_⟩
      · rw [h4]; rfl
      · intro x hx; simp at hx
    · refine ⟨v :: l1, l2, ?_, ?_⟩
      · rw [List.cons_append, ← hs]
      · intro x hx
        rcases List.mem_cons.mp hx with hx | hx
        · exact hx ▸ hm
        · exact hl x hx
  have hmem : best.2 ∈ v :: rest := by
    obtain ⟨l1, l2, hs, _⟩ := hsplit
    rw [hs]
    exact List.mem_append_right l1 (List.mem_cons_self _ _)
  have hnz : best.2 ≠ "" := by
    intro hcon
    exact hids (by simpa [hcon] using hmem)
  have hrun : LeastConnections.get_next_server ⟨v :: rest, conns⟩ =
      (some best.2,
        ⟨v :: rest, aset conns best.2 (alookup0 conns best.2 + 1)⟩) := by
    rw [show LeastConnections.get_next_server ⟨v :: rest, conns⟩ =
      (if best.2 ≠ "" then
        (some best.2,
          ⟨v :: rest, aset conns best.2 (alookup0 conns best.2 + 1)⟩)
      else (some best.2, ⟨v :: rest, conns⟩)) from rfl]
    rw [if_pos hnz]
  refine ⟨best.2, ?_, by rw [h1]; exact hsplit, ?_, ?_, ?_⟩
  · rw [hrun]
  · intro x hx
    rcases List.mem_cons.mp hx with hx | hx
    · rw [h1, hx]; exact h2
    · rw [h1]; exact h3 x hx
  · rw [hrun]
    simp [LeastConnections.alookup0_aset]
  · intro t ht
    rw [hrun]
    simp [LeastConnections.alookup0_aset, ht]

/-- Witness for C6 (amended): the spec's worked example — active counts
`{a:5, b:2, c:8}` — instantiated through the theorem. -/
theorem C6_lc_witness :
    (LeastConnections.get_next_server
        ⟨["a", "b", "c"], [("a", 5), ("b", 2), ("c", 8)]⟩).1 = some "b" ∧
      alookup0 (LeastConnections.get_next_server
          ⟨["a", "b", "c"], [("a", 5), ("b", 2), ("c", 8)]⟩).2.connections "b"
        = 3 := by
  obtain ⟨⟨s, hsel, _, _, hinc, _⟩, _⟩ :=
    C6_lc_amended ⟨["a", "b", "c"], [("a", 5), ("b", 2), ("c", 8)]⟩
      (by decide) (by decide)
  have hs : s = "b" := by
    have h := hsel.symm.trans
      (show (LeastConnections.get_next_server
        ⟨["a", "b", "c"], [("a", 5), ("b", 2), ("c", 8)]⟩).1 = some "b"
        from rfl)
    exact Option.some_inj.mp h
  subst hs
  exact ⟨hsel, by rw [hinc]; rfl⟩

/-! ## IP Hash (`src/plugins/ip_hash.py`)

`IPHashPlugin` caches a client-IP → backend mapping.  The MD5 digest of
the client IP is abstracted as a parameter `hashVal : String → ℕ`
(`_hash_ip` reduces it modulo the backend count); every property proved
below holds for an arbitrary digest function. -/

namespace IPHash

structure IPHState where
  backend_cache : List (String × String)
  total_requests : ℕ
  cache_hits : ℕ
  unique_clients : ℕ
deriving DecidableEq, Repr

/-- `IPHashPlugin._hash_ip`: digest reduced modulo the backend count. -/
def _hash_ip (hashVal : String → ℕ) (clientIp : String)
    (backendCount : ℕ) : ℕ :=
  hashVal clientIp % backendCount

/-- The fresh-assignment tail of `select_backend` (hash, cache, return),
shared by the cache-miss and stale-entry paths. -/
def assignFresh (hashVal : String → ℕ) (st : IPHState)
    (backends : List String) (clientIp : String) :
    Option String × IPHState :=
  let idx := _hash_ip hashVal clientIp backends.length
  let selected := backends.getD idx ""
  let st' :=
    if (alookup st.backend_cache clientIp).isSome then st
    else { st with unique_clients := st.unique_clients + 1 }
  (some selected,
    { st' with backend_cache := aset st'.backend_cache clientIp selected })

/-- `IPHashPlugin.select_backend`. -/
def select_backend (hashVal : String → ℕ) (st : IPHState)
    (backends : List String) (clientIp : String) :
    Option String × IPHState :=
  if backends.isEmpty then (none, st)
  else if clientIp = "" then (backends.head?, st)
  else
    let st' := { st with total_requests := st.total_requests + 1 }
    match alookup st'.backend_cache clientIp with
    | some cached =>
      if cached ∈ backends then
        (some cached, { st' with cache_hits := st'.cache_hits + 1 })
      else
        assignFresh hashVal
          { st' with backend_cache := aerase st'.backend_cache clientIp }
          backends clientIp
    | none => assignFresh hashVal st' backends clientIp

/-- `IPHashPlugin.remove_backend`: purge every cache entry mapped to the
removed backend. -/
def remove_backend (st : IPHState) (backendId : String) : IPHState :=
  { st with backend_cache :=
      st.backend_cache.filter (fun p => ¬ p.2 == backendId) }

/-- State after `k` successive `select_backend` calls with the same
backend list and client. -/
def iterState (hashVal : String → ℕ) (backends : List String)
    (clientIp : String) (st : IPHState) : ℕ → IPHState
  | 0 => st
  | k + 1 =>
    (select_backend hashVal (iterState hashVal backends clientIp st k)
      backends clientIp).2

/-- Result of the `(k+1)`-st `select_backend` call in that sequence. -/
def resultAt (hashVal : String → ℕ) (backends : List String)
    (clientIp : String) (st : IPHState) (k : ℕ) : Option String :=
  (select_backend hashVal (iterState hashVal backends clientIp st k)
    backends clientIp).1

theorem getD_mod_mem (backends : List String) (h : backends ≠ []) (n : ℕ) :
    backends.getD (n % backends.length) "" ∈ backends := by
  have hlen : 0 < backends.length := List.length_pos.mpr h
  have hidx : n % backends.length < backends.length := Nat.mod_lt _ hlen
  rw [List.getD_eq_getElem _ _ hidx]
  exact List.getElem_mem _

/-- Any `select_backend` call with a non-empty backend list and a
non-empty client id returns a backend from the list and leaves it cached
for that client. -/
theorem select_backend_caches (hashVal : String → ℕ) (st : IPHState)
    (backends : List String) (clientIp : String) (hb : backends ≠ [])
    (hip : clientIp ≠ "") :
    ∃ r, (select_backend hashVal st backends clientIp).1 = some r ∧
      r ∈ backends ∧
      alookup (select_backend hashVal st backends clientIp).2.backend_cache
        clientIp = some r := by
  have hbe : backends.isEmpty = false := by
    cases backends with
    | nil => exact absurd rfl hb
    | cons a t => rfl
  unfold select_backend
  rw [hbe]
  simp only [Bool.false_eq_true, if_false, if_neg hip]
  cases hc : alookup st.backend_cache clientIp with
  | some cached =>
    by_cases hcb : cached ∈ backends
    · simp only [if_pos hcb]
      exact ⟨cached, rfl, hcb, hc⟩
    · simp only [if_neg hcb]
      unfold assignFresh
      refine ⟨backends.getD (_hash_ip hashVal clientIp backends.length) "",
        rfl, getD_mod_mem backends hb _, ?_⟩
      simp [alookup_aset]
  | none =>
    unfold assignFresh
    refine ⟨backends.getD (_hash_ip hashVal clientIp backends.length) "",
      rfl, getD_mod_mem backends hb _, ?_⟩
    simp [alookup_aset]

/-- A cache hit returns the cached backend and leaves the cache
unchanged. -/
theorem select_backend_hit (hashVal : String → ℕ) (st : IPHState)
    (backends : List String) (clientIp : String) (c : String)
    (hb : backends ≠ []) (hip : clientIp ≠ "")
    (hc : alookup st.backend_cache clientIp = some c)
    (hcb : c ∈ backends) :
    (select_backend hashVal st backends clientIp).1 = some c ∧
      (select_backend hashVal st backends clientIp).2.backend_cache
        = st.backend_cache := by
  have hbe : backends.isEmpty = false := by
    cases backends with
    | nil => exact absurd rfl hb
    | cons a t => rfl
  unfold select_backend
  rw [hbe]
  simp only [Bool.false_eq_true, if_false, if_neg hip]
  rw [show alookup
    ({ st with total_requests := st.total_requests + 1 } :
      IPHState).backend_cache clientIp
    = alookup st.backend_cache clientIp from rfl, hc]
  simp only [if_pos hcb]
  exact ⟨by trivial, by trivial⟩

end IPHash

/-- C7: for the IP-hash sticky strategy — (1) repeated `select_backend`
calls with the same non-empty `client_id` and an unchanged eligible
backend list always return the same backend; (2) when the cached backend
is no longer eligible, the stale entry is dropped and a fresh hash-based
assignment (`hash(client) mod len`) is made and cached; (3)
`remove_backend(b)` leaves no cache entry mapping any client to `b`. -/
theorem C7_iph_sticky (hashVal : String → ℕ) (st : IPHash.IPHState)
    (backends : List String) (clientIp : String)
    (hb : backends ≠ []) (hip : clientIp ≠ "") :
    (∀ k : ℕ, IPHash.resultAt hashVal backends clientIp st k
      = IPHash.resultAt hashVal backends clientIp st 0) ∧
    (∀ c, alookup st.backend_cache clientIp = some c → c ∉ backends →
      (IPHash.select_backend hashVal st backends clientIp).1
        = some (backends.getD (hashVal clientIp % backends.length) "") ∧
      alookup (IPHash.select_backend hashVal st backends
          clientIp).2.backend_cache clientIp
        = some (backends.getD (hashVal clientIp % backends.length) "")) ∧
    (∀ (st' : IPHash.IPHState) (backendId clientIp' : String),
      alookup (IPHash.remove_backend st' backendId).backend_cache clientIp'
        ≠ some backendId) := by
  refine ⟨?_, ?_, ?_⟩
  · -- stickiness across repeated calls
    obtain ⟨r, hr1, hr2, hr3⟩ :=
      IPHash.select_backend_caches hashVal st backends clientIp hb hip
    have key : ∀ k : ℕ,
        IPHash.resultAt hashVal backends clientIp st k = some r ∧
        alookup (IPHash.iterState hashVal backends clientIp st
          (k + 1)).backend_cache clientIp = some r := by
      intro k
      induction k with
      | zero => exact ⟨hr1, hr3⟩
      | succ k ih =>
        obtain ⟨ihres, ihcache⟩ := ih
        obtain ⟨hhit1, hhit2⟩ := IPHash.select_backend_hit hashVal
          (IPHash.iterState hashVal backends clientIp st (k + 1))
          backends clientIp r hb hip ihcache hr2
        exact ⟨hhit1, by rw [show IPHash.iterState hashVal backends clientIp
          st (k + 2) = (IPHash.select_backend hashVal
            (IPHash.iterState hashVal backends clientIp st (k + 1))
            backends clientIp).2 from rfl, hhit2]; exact ihcache⟩
    intro k
    rw [(key k).1, (key 0).1]
  · -- stale cache entry: dropped and freshly assigned
    intro c hc hcb
    have hbe : backends.isEmpty = false := by
      cases backends with
      | nil => exact absurd rfl hb
      | cons a t => rfl
    unfold IPHash.select_backend
    rw [hbe]
    simp only [Bool.false_eq_true, if_false, if_neg hip]
    rw [show alookup
      ({ st with total_requests := st.total_requests + 1 } :
        IPHash.IPHState).backend_cache clientIp
      = alookup st.backend_cache clientIp from rfl, hc]
    simp only [if_neg hcb]
    unfold IPHash.assignFresh
    exact ⟨rfl, by simp [alookup_aset, IPHash._hash_ip]⟩
  · -- purge on backend removal
    intro st' backendId clientIp'
    unfold IPHash.remove_backend
    apply alookup_aerase_ne
    intro p hp
    have := (List.mem_filter.mp hp).2
    simpa using this

/-- Witness for C7 at a concrete input: a fresh plugin, two backends and
client `"c"` (digest = string length). -/
theorem C7_iph_witness :
    IPHash.resultAt String.length ["x", "y"] "c" ⟨[], 0, 0, 0⟩ 5
      = IPHash.resultAt String.length ["x", "y"] "c" ⟨[], 0, 0, 0⟩ 0 ∧
    IPHash.resultAt String.length ["x", "y"] "c" ⟨[], 0, 0, 0⟩ 0
      = some "y" :=
  ⟨(C7_iph_sticky String.length ⟨[], 0, 0, 0⟩ ["x", "y"] "c"
      (by decide) (by decide)).1 5, rfl⟩

/-! ## Circuit Breaker (`src/reliability/circuit_breaker.py`)

The Python enum value `CircuitState.OPEN` is rendered `opened` (`open` is
a Lean keyword).  The `stats` counter dict only feeds `get_stats` and
never influences control flow, so it is omitted from the state. -/

namespace CircuitBreaker

inductive CircuitState where
  | closed
  | opened
  | halfOpen
deriving DecidableEq, Repr

structure CircuitBreakerConfig where
  failure_threshold : ℕ
  success_threshold : ℕ
  timeout : ℚ
  window_size : ℕ
deriving DecidableEq, Repr

structure CBState where
  config : CircuitBreakerConfig
  state : CircuitState
  failure_count : ℕ
  success_count : ℕ
  last_failure_time : ℚ
  call_history : List Bool
deriving DecidableEq, Repr

/-- `CircuitBreaker._change_state`. -/
def _change_state (cb : CBState) (newState : CircuitState) (now : ℚ) :
    CBState :=
  if cb.state ≠ newState then
    let cb := { cb with state := newState }
    if newState = CircuitState.opened then
      { cb with last_failure_time := now }
    else if newState = CircuitState.closed then
      { cb with failure_count := 0, success_count := 0, call_history := [] }
    else cb
  else cb

/-- `CircuitBreaker._should_attempt_reset`. -/
def _should_attempt_reset (cb : CBState) (now : ℚ) : Bool :=
  cb.state = CircuitState.opened ∧
    cb.config.timeout ≤ now - cb.last_failure_time

/-- `CircuitBreaker.is_available`: answers the availability query.  The
source reads the state under the lock and returns — it never calls
`_change_state` — so the state component of the result is `cb` itself. -/
def is_available (cb : CBState) (now : ℚ) : Bool × CBState :=
  (if _should_attempt_reset cb now then true
   else cb.state ≠ CircuitState.opened, cb)

/-- `CircuitBreaker.get_state`. -/
def get_state (cb : CBState) : CircuitState := cb.state

/-- The locked admission prelude of `CircuitBreaker.call`: perform the
reset check (transitioning to half-open when due) and decide whether the
wrapped operation may run. -/
def callAdmission (cb : CBState) (now : ℚ) : Bool × CBState :=
  let cb :=
    if _should_attempt_reset cb now then
      _change_state cb CircuitState.halfOpen now
    else cb
  (cb.state ≠ CircuitState.opened, cb)

end CircuitBreaker

/-- A breaker that is Open (timeout 60, tripped at time 0), used to
exercise C1 at the concrete instant `now = 60`. -/
def cbOpenEx : CircuitBreaker.CBState :=
  ⟨⟨3, 1, 60, 10⟩, CircuitBreaker.CircuitState.opened, 3, 0, 0,
    [false, false, false]⟩

theorem cbOpenEx_reset :
    CircuitBreaker._should_attempt_reset cbOpenEx 60 = true := by
  simp [CircuitBreaker._should_attempt_reset, cbOpenEx]

/-- C1, counterexample: a breaker that is `Open` with its timeout fully
elapsed (timeout 60, opened at time 0, queried at time 60).
`is_available()` answers `true`, but performs no transition: the state
observed by `get_state()` immediately after the query is still `Open`,
not `HalfOpen` as the claim requires. -/
theorem C1_cb_counterexample :
    (CircuitBreaker.is_available cbOpenEx 60).1 = true ∧
      CircuitBreaker.get_state (CircuitBreaker.is_available cbOpenEx 60).2
        ≠ CircuitBreaker.CircuitState.halfOpen := by
  constructor
  · simp [CircuitBreaker.is_available, cbOpenEx_reset]
  · intro h
    exact absurd h (by decide)

/-- C1 (amended): `is_available()` returns true exactly when the state is
Closed or HalfOpen, or when the state is Open and
`now - last_failure_time ≥ timeout`; but the query has no side effect —
the state it returns alongside is the input state unchanged, so a
`get_state()` after such a query still observes `Open`.  The transition
to HalfOpen happens instead in the locked prelude of `call()`. -/
theorem C1_cb_amended (cb : CircuitBreaker.CBState) (now : ℚ) :
    ((CircuitBreaker.is_available cb now).1 = true ↔
      (cb.state ≠ CircuitBreaker.CircuitState.opened ∨
        (cb.state = CircuitBreaker.CircuitState.opened ∧
          cb.config.timeout ≤ now - cb.last_failure_time))) ∧
    (CircuitBreaker.is_available cb now).2 = cb ∧
    (CircuitBreaker._should_attempt_reset cb now = true →
      (CircuitBreaker.callAdmission cb now).2.state
        = CircuitBreaker.CircuitState.halfOpen) := by
  refine ⟨?_, rfl, ?_⟩
  · unfold CircuitBreaker.is_available CircuitBreaker._should_attempt_reset
    by_cases hs : cb.state = CircuitBreaker.CircuitState.opened
    · by_cases ht : cb.config.timeout ≤ now - cb.last_failure_time
      · simp [hs, ht]
      · simp [hs, ht]
    · simp [hs]
  · intro h
    unfold CircuitBreaker.callAdmission
    rw [if_pos h]
    have hs : cb.state = CircuitBreaker.CircuitState.opened := by
      unfold CircuitBreaker._should_attempt_reset at h
      by_cases hc : cb.state = CircuitBreaker.CircuitState.opened
      · exact hc
      · simp [hc] at h
    unfold CircuitBreaker._change_state
    rw [if_pos (by rw [hs]; decide)]
    rfl

/-- Witness for C1 (amended) at the concrete Open breaker. -/
theorem C1_cb_witness :
    (CircuitBreaker.is_available cbOpenEx 60).2 = cbOpenEx ∧
    (CircuitBreaker.callAdmission cbOpenEx 60).2.state
      = CircuitBreaker.CircuitState.halfOpen :=
  ⟨(C1_cb_amended cbOpenEx 60).2.1,
    (C1_cb_amended cbOpenEx 60).2.2 cbOpenEx_reset⟩

/-! ## Rate Limiters (`src/reliability/rate_limiter.py`) -/

namespace RateLimiter

/-- `TokenBucketRateLimiter` state: `capacity = burst_size`,
`rate = requests_per_second`. -/
structure TBState where
  capacity : ℚ
  tokens : ℚ
  rate : ℚ
  last_update : ℚ
deriving DecidableEq, Repr

/-- `TokenBucketRateLimiter._refill_tokens`. -/
def _refill_tokens (st : TBState) (now : ℚ) : TBState :=
  { st with
    tokens := min st.capacity (st.tokens + (now - st.last_update) * st.rate),
    last_update := now }

/-- `TokenBucketRateLimiter.allow_request(tokens=cost)`.  The cost is the
Python `int` parameter, so it ranges over `ℤ`. -/
def allow_request (st : TBState) (now : ℚ) (cost : ℤ) : Bool × TBState :=
  let st := _refill_tokens st now
  if (cost : ℚ) ≤ st.tokens then
    (true, { st with tokens := st.tokens - (cost : ℚ) })
  else
    (false, st)

/-- `SlidingWindowRateLimiter` state.  `max_requests = int(rps)` is the
Python truncation toward zero of the configured rate. -/
structure SWState where
  window_size : ℚ
  max_requests : ℤ
  request_times : List ℚ
deriving DecidableEq, Repr

/-- Python `int(x)` on a float: truncation toward zero. -/
def pyInt (q : ℚ) : ℤ := if 0 ≤ q then ⌊q⌋ else -⌊-q⌋

/-- `SlidingWindowRateLimiter.__init__` with
`requests_per_second = rps`. -/
def SWinit (rps : ℚ) : SWState :=
  { window_size := 1, max_requests := pyInt rps, request_times := [] }

/-- `SlidingWindowRateLimiter._clean_old_requests`. -/
def _clean_old_requests (st : SWState) (now : ℚ) : SWState :=
  { st with request_times :=
      st.request_times.dropWhile (fun t => t < now - st.window_size) }

/-- `SlidingWindowRateLimiter.allow_request`. -/
def swAllow_request (st : SWState) (now : ℚ) : Bool × SWState :=
  let st := _clean_old_requests st now
  if (st.request_times.length : ℤ) < st.max_requests then
    (true, { st with request_times := st.request_times ++ [now] })
  else
    (false, st)

end RateLimiter

/-- C4, counterexample: `allow_request` does not restrict its cost
parameter, and a *negative* cost is "deducted" by adding tokens: a full
bucket (capacity 10, 10 tokens) admits a request of cost `-1` and ends
with 11 tokens, violating `tokens ≤ capacity`. -/
theorem C4_tb_counterexample :
    ((RateLimiter.allow_request ⟨10, 10, 1, 0⟩ 0 (-1)).2).tokens
        = 11 ∧
      ¬ ((RateLimiter.allow_request ⟨10, 10, 1, 0⟩ 0 (-1)).2).tokens
          ≤ (10 : ℚ) := by
  have h : (RateLimiter.allow_request ⟨10, 10, 1, 0⟩ 0 (-1)).2.tokens
      = 11 := by
    simp [RateLimiter.allow_request, RateLimiter._refill_tokens]
    norm_num
  refine ⟨h, by rw [h]; norm_num⟩

/-- C4 (amended): for a clock that does not run backwards
(`last_update ≤ now`), a positive refill rate, and a *non-negative* cost,
`allow_request` preserves `0 ≤ tokens ≤ capacity`; it first refills to
`min(capacity, tokens + elapsed·rate)`, admits exactly when the refilled
tokens cover the cost (deducting it), and a depleted bucket queried
`capacity/rate` seconds after its last update refills to exactly its
capacity.  (The unrestricted-cost version of the invariant is refuted by
the counterexample: a negative cost can push tokens above capacity.) -/
theorem C4_tb_amended (st : RateLimiter.TBState) (now : ℚ) (cost : ℤ)
    (h0 : 0 ≤ st.tokens) (h1 : st.tokens ≤ st.capacity)
    (ht : st.last_update ≤ now) (hr : 0 < st.rate) (hc : 0 ≤ cost) :
    (0 ≤ ((RateLimiter.allow_request st now cost).2).tokens ∧
      ((RateLimiter.allow_request st now cost).2).tokens ≤ st.capacity) ∧
    (RateLimiter._refill_tokens st now).tokens
      = min st.capacity (st.tokens + (now - st.last_update) * st.rate) ∧
    ((RateLimiter.allow_request st now cost).1 = true ↔
      (cost : ℚ) ≤ (RateLimiter._refill_tokens st now).tokens) ∧
    ((RateLimiter.allow_request st now cost).1 = true →
      ((RateLimiter.allow_request st now cost).2).tokens
        = (RateLimiter._refill_tokens st now).tokens - (cost : ℚ)) ∧
    (st.tokens = 0 →
      (RateLimiter._refill_tokens st
          (st.last_update + st.capacity / st.rate)).tokens
        = st.capacity) := by
  have hcap : 0 ≤ st.capacity := le_trans h0 h1
  have hrefill0 : 0 ≤ (RateLimiter._refill_tokens st now).tokens := by
    unfold RateLimiter._refill_tokens
    simp only
    apply le_min hcap
    have : 0 ≤ (now - st.last_update) * st.rate :=
      mul_nonneg (by linarith) (le_of_lt hr)
    linarith
  have hrefillc : (RateLimiter._refill_tokens st now).tokens
      ≤ st.capacity := by
    unfold RateLimiter._refill_tokens
    simp only
    exact min_le_left _ _
  refine ⟨?_, rfl, ?_, ?_, ?_⟩
  · unfold RateLimiter.allow_request
    by_cases hadm : (cost : ℚ) ≤ (RateLimiter._refill_tokens st now).tokens
    · simp only [if_pos hadm]
      have hcq : (0 : ℚ) ≤ (cost : ℚ) := by exact_mod_cast hc
      constructor
      · show 0 ≤ (RateLimiter._refill_tokens st now).tokens - (cost : ℚ)
        linarith
      · show (RateLimiter._refill_tokens st now).tokens - (cost : ℚ)
          ≤ st.capacity
        linarith
    · simp only [if_neg hadm]
      exact ⟨hrefill0, hrefillc⟩
  · unfold RateLimiter.allow_request
    by_cases hadm : (cost : ℚ) ≤ (RateLimiter._refill_tokens st now).tokens
    · simp [if_pos hadm, hadm]
    · simp [if_neg hadm, hadm]
  · unfold RateLimiter.allow_request
    by_cases hadm : (cost : ℚ) ≤ (RateLimiter._refill_tokens st now).tokens
    · simp [if_pos hadm]
    · simp [if_neg hadm]
  · intro hz
    unfold RateLimiter._refill_tokens
    simp only
    rw [hz]
    have hrne : st.rate ≠ 0 := ne_of_gt hr
    have : st.last_update + st.capacity / st.rate - st.last_update
        = st.capacity / st.rate := by ring
    rw [this, zero_add, div_mul_cancel₀ _ hrne, min_self]

/-- Witness for C4 (amended): a bucket of capacity 10 holding 4 tokens,
queried 2 seconds later at rate 1 with cost 1. -/
theorem C4_tb_witness :
    (0 ≤ ((RateLimiter.allow_request ⟨10, 4, 1, 0⟩ 2 1).2).tokens ∧
      ((RateLimiter.allow_request ⟨10, 4, 1, 0⟩ 2 1).2).tokens
        ≤ (10 : ℚ)) ∧
    ((RateLimiter.allow_request ⟨10, 4, 1, 0⟩ 2 1).1 = true ↔
      (1 : ℚ) ≤ (RateLimiter._refill_tokens ⟨10, 4, 1, 0⟩ 2).tokens) := by
  have h := C4_tb_amended ⟨10, 4, 1, 0⟩ 2 1 (by norm_num) (by norm_num)
    (by norm_num) (by norm_num) (by norm_num)
  exact ⟨h.1, by exact_mod_cast h.2.2.1⟩

/-- C10: a sliding-window limiter constructed with
`requests_per_second < 1` truncates its admission limit
`max_requests = int(rps)` to `0` (for the non-negative rates the config
is meant for), and therefore every `allow_request()` call — whatever the
recorded timestamps and the current time — returns `False`: the limiter
admits no requests at all. -/
theorem C10_sw_starves (rps : ℚ) (h : rps < 1) :
    (0 ≤ rps → (RateLimiter.SWinit rps).max_requests = 0) ∧
    (∀ (times : List ℚ) (now : ℚ),
      (RateLimiter.swAllow_request
        ⟨1, (RateLimiter.SWinit rps).max_requests, times⟩ now).1
        = false) := by
  have hle : RateLimiter.pyInt rps ≤ 0 := by
    unfold RateLimiter.pyInt
    by_cases h0 : 0 ≤ rps
    · rw [if_pos h0]
      have hfz : ⌊rps⌋ = 0 := by
        rw [Int.floor_eq_zero_iff, Set.mem_Ico]
        exact ⟨h0, h⟩
      omega
    · rw [if_neg h0]
      push_neg at h0
      have : (0 : ℤ) ≤ ⌊-rps⌋ := by
        apply Int.floor_nonneg.mpr
        linarith
      omega
  constructor
  · intro h0
    show RateLimiter.pyInt rps = 0
    unfold RateLimiter.pyInt
    rw [if_pos h0]
    rw [Int.floor_eq_zero_iff, Set.mem_Ico]
    exact ⟨h0, h⟩
  · intro times now
    unfold RateLimiter.swAllow_request
    rw [if_neg ?_]
    intro hcon
    have hnn : (0 : ℤ) ≤ ((RateLimiter._clean_old_requests
        ⟨1, (RateLimiter.SWinit rps).max_requests, times⟩
        now).request_times.length : ℤ) := Int.ofNat_nonneg _
    have : (RateLimiter.SWinit rps).max_requests = RateLimiter.pyInt rps :=
      rfl
    rw [show (RateLimiter._clean_old_requests
      ⟨1, (RateLimiter.SWinit rps).max_requests, times⟩
      now).max_requests = RateLimiter.pyInt rps from rfl] at hcon
    omega

/-- Witness for C10 at `rps = 1/2`. -/
theorem C10_sw_witness :
    (RateLimiter.SWinit (1/2)).max_requests = 0 ∧
    (RateLimiter.swAllow_request
        ⟨1, (RateLimiter.SWinit (1/2)).max_requests, []⟩ 0).1 = false :=
  ⟨(C10_sw_starves (1/2) (by norm_num)).1 (by norm_num),
    (C10_sw_starves (1/2) (by norm_num)).2 [] 0⟩

/-! ## Connection Pool (`src/core/connection_pool.py`)

Connections are keyed by the `created_connections` counter (the source
builds `connection_id` from it, so ids never repeat).  The handle a
caller receives (`conn.connection`) is modelled by that id.  The pool is
embedded with the default `connection_factory = None`, for which creation
below `max_connections` always succeeds.  The background maintenance
thread is modelled by invoking `_perform_maintenance` as an explicit
operation. -/

namespace ConnectionPool

inductive ConnState where
  | idle
  | inUse
deriving DecidableEq, Repr

structure PooledConnection where
  connection_id : ℕ
  state : ConnState
  created_at : ℚ
  last_used : ℚ
  use_count : ℕ
deriving DecidableEq, Repr

structure PoolConfig where
  min_connections : ℕ
  max_connections : ℕ
  idle_timeout : ℚ
  max_lifetime : ℚ
deriving DecidableEq, Repr

structure Pool where
  config : PoolConfig
  connections : List PooledConnection
  available : List ℕ
  running : Bool
  created_connections : ℕ
deriving DecidableEq, Repr

/-- `PooledConnection.is_expired`. -/
def is_expired (c : PooledConnection) (max_lifetime now : ℚ) : Bool :=
  max_lifetime < now - c.created_at

/-- `PooledConnection.is_idle_timeout`. -/
def is_idle_timeout (c : PooledConnection) (idle_timeout now : ℚ) : Bool :=
  c.state = ConnState.idle ∧ idle_timeout < now - c.last_used

/-- `PooledConnection.mark_used`. -/
def mark_used (c : PooledConnection) (now : ℚ) : PooledConnection :=
  { c with
    state := ConnState.inUse, last_used := now,
    use_count := c.use_count + 1 }

/-- `PooledConnection.mark_idle`. -/
def mark_idle (c : PooledConnection) (now : ℚ) : PooledConnection :=
  { c with state := ConnState.idle, last_used := now }

/-- A fresh, not-yet-started pool (`ConnectionPool.__init__`). -/
def mkPool (cfg : PoolConfig) : Pool :=
  { config := cfg, connections := [], available := [], running := false,
    created_connections := 0 }

/-- `ConnectionPool._create_connection` (default factory: creation always
succeeds below `max_connections`). -/
def _create_connection (p : Pool) (now : ℚ) :
    Option PooledConnection × Pool :=
  if p.config.max_connections ≤ p.connections.length then
    (none, p)
  else
    let c : PooledConnection :=
      { connection_id := p.created_connections, state := ConnState.idle,
        created_at := now, last_used := now, use_count := 0 }
    (some c,
      { p with
        connections := p.connections ++ [c],
        created_connections := p.created_connections + 1 })

/-- `ConnectionPool.start` (idempotent; creates `min_connections`
connections; the maintenance thread is modelled separately). -/
def start (p : Pool) (now : ℚ) : Pool :=
  if p.running then p
  else
    (List.range p.config.min_connections).foldl
      (fun q _ => (_create_connection q now).2)
      { p with running := true }

/-- `ConnectionPool.stop`: closes every connection and drains the
available queue. -/
def stop (p : Pool) : Pool :=
  { p with running := false, connections := [], available := [] }

/-- Replace the stored connection with the given id by its `mark_used`
image (the Python code mutates the shared object). -/
def markUsedIn (cs : List PooledConnection) (cid : ℕ) (now : ℚ) :
    List PooledConnection :=
  cs.map (fun c => if c.connection_id = cid then mark_used c now else c)

/-- The create-new-connection tail of `ConnectionPool.acquire`. -/
def acquireCreate (p : Pool) (now : ℚ) : Option ℕ × Pool :=
  match _create_connection p now with
  | (some c, p') =>
    (some c.connection_id,
      { p' with connections := markUsedIn p'.connections c.connection_id now })
  | (none, p') => (none, p')

/-- `ConnectionPool.acquire`: pop the head of the available queue; if its
connection is still pooled, mark it used and hand it out; otherwise (or
with an empty queue, after the timeout) try to create a new one.  Note
the source never checks `self.running` here. -/
def acquire (p : Pool) (now : ℚ) : Option ℕ × Pool :=
  match p.available with
  | cid :: rest =>
    let p := { p with available := rest }
    if (p.connections.find? (fun c => c.connection_id = cid)).isSome then
      (some cid, { p with connections := markUsedIn p.connections cid now })
    else
      acquireCreate p now
  | [] => acquireCreate p now

/-- `ConnectionPool.release`: mark the first matching pooled connection
idle and push it back on the queue; unknown handles are a no-op. -/
def release (p : Pool) (cid : ℕ) (now : ℚ) : Pool :=
  if (p.connections.find? (fun c => c.connection_id = cid)).isSome then
    { p with
      connections :=
        p.connections.map
          (fun c => if c.connection_id = cid then mark_idle c now else c),
      available := p.available ++ [cid] }
  else p

/-- The `while len(self.connections) < min_connections` replenishment
loop at the end of `_perform_maintenance`; `fuel` bounds the iterations
(each successful creation grows the pool by one, so
`fuel = min_connections` always suffices, and on a failed creation the
loop breaks). -/
def topUp (p : Pool) (now : ℚ) : ℕ → Pool
  | 0 => p
  | fuel + 1 =>
    if p.connections.length < p.config.min_connections then
      match _create_connection p now with
      | (some c, p') =>
        topUp { p' with available := p'.available ++ [c.connection_id] }
          now fuel
      | (none, p') => p'
    else p

/-- `ConnectionPool._perform_maintenance`: collect the idle expired /
idle-timed-out connections (the `len > min` guard is evaluated during
collection, before any close), close them, then top back up to
`min_connections`. -/
def _perform_maintenance (p : Pool) (now : ℚ) : Pool :=
  let toClose := p.connections.filter
    (fun c => c.state = ConnState.idle &&
      (is_expired c p.config.max_lifetime now ||
        is_idle_timeout c p.config.idle_timeout now) &&
      decide (p.config.min_connections < p.connections.length))
  let remaining := toClose.foldl
    (fun cs c => cs.eraseP (fun x => x.connection_id = c.connection_id))
    p.connections
  let p := { p with connections := remaining }
  topUp p now p.config.min_connections

/-- The operations a caller (or the maintenance thread) can perform on a
started pool, each stamped with the wall-clock time of the call. -/
inductive PoolOp where
  | opAcquire (now : ℚ)
  | opRelease (cid : ℕ) (now : ℚ)
  | opMaintain (now : ℚ)
deriving DecidableEq, Repr

def applyOp (p : Pool) : PoolOp → Pool
  | PoolOp.opAcquire now => (acquire p now).2
  | PoolOp.opRelease cid now => release p cid now
  | PoolOp.opMaintain now => _perform_maintenance p now

def applyOps (p : Pool) (ops : List PoolOp) : Pool :=
  ops.foldl applyOp p

end ConnectionPool

/-- C5, counterexample: stop a started pool (min 1, max 2), then call
`acquire`.  The source's `acquire` never consults `self.running`; with
the pool emptied it simply creates a fresh connection and returns it,
instead of failing until `start()` is called again. -/
theorem C5_pool_counterexample :
    (ConnectionPool.acquire
        (ConnectionPool.stop
          (ConnectionPool.start (ConnectionPool.mkPool ⟨1, 2, 300, 3600⟩) 0))
        1).1 = some 1 ∧
      (ConnectionPool.acquire
          (ConnectionPool.stop
            (ConnectionPool.start
              (ConnectionPool.mkPool ⟨1, 2, 300, 3600⟩) 0))
          1).1 ≠ none := by
  constructor
  · rfl
  · intro h
    rw [show (ConnectionPool.acquire
        (ConnectionPool.stop
          (ConnectionPool.start (ConnectionPool.mkPool ⟨1, 2, 300, 3600⟩) 0))
        1).1 = some 1 from rfl] at h
    exact Option.noConfusion h

/-- C5 (amended): `stop()` closes all pooled connections (the pool and
its available queue are emptied) and clears `running`; but a subsequent
`acquire` does not fail: since it never checks `running`, it returns the
no-connection result exactly when `max_connections = 0` — for any
positive `max_connections` it creates and returns a fresh connection. -/
theorem C5_pool_amended (p : ConnectionPool.Pool) (now : ℚ) :
    (ConnectionPool.stop p).connections = [] ∧
    (ConnectionPool.stop p).available = [] ∧
    (ConnectionPool.stop p).running = false ∧
    ((ConnectionPool.acquire (ConnectionPool.stop p) now).1 = none ↔
      p.config.max_connections = 0) := by
  refine ⟨rfl, rfl, rfl, ?_⟩
  show ((ConnectionPool.acquireCreate (ConnectionPool.stop p) now).1 = none
    ↔ p.config.max_connections = 0)
  unfold ConnectionPool.acquireCreate ConnectionPool._create_connection
  by_cases h : p.config.max_connections = 0
  · have hcond : (ConnectionPool.stop p).config.max_connections ≤
        (ConnectionPool.stop p).connections.length := by
      show p.config.max_connections ≤ ([] : List _).length
      simp [h]
    rw [if_pos hcond]
    simp [h]
  · have hcond : ¬ ((ConnectionPool.stop p).config.max_connections ≤
        (ConnectionPool.stop p).connections.length) := by
      show ¬ (p.config.max_connections ≤ ([] : List _).length)
      simp only [List.length_nil, Nat.le_zero]
      exact h
    rw [if_neg hcond]
    simp [h]

namespace ConnectionPool

theorem create_length (p : Pool) (now : ℚ) :
    ((_create_connection p now).2).connections.length =
      if p.config.max_connections ≤ p.connections.length then
        p.connections.length
      else p.connections.length + 1 := by
  unfold _create_connection
  by_cases h : p.config.max_connections ≤ p.connections.length
  · rw [if_pos h, if_pos h]
  · rw [if_neg h, if_neg h]
    simp

theorem create_config (p : Pool) (now : ℚ) :
    ((_create_connection p now).2).config = p.config := by
  unfold _create_connection
  by_cases h : p.config.max_connections ≤ p.connections.length
  · rw [if_pos h]
  · rw [if_neg h]

theorem create_bounds (p : Pool) (now : ℚ)
    (h : p.connections.length ≤ p.config.max_connections) :
    p.connections.length ≤ ((_create_connection p now).2).connections.length
      ∧ ((_create_connection p now).2).connections.length
          ≤ p.config.max_connections := by
  rw [create_length]
  by_cases hc : p.config.max_connections ≤ p.connections.length
  · rw [if_pos hc]
    omega
  · rw [if_neg hc]
    omega

theorem acquireCreate_sizes (p : Pool) (now : ℚ)
    (h : p.connections.length ≤ p.config.max_connections) :
    p.connections.length
        ≤ ((acquireCreate p now).2).connections.length ∧
      ((acquireCreate p now).2).connections.length
        ≤ p.config.max_connections ∧
      ((acquireCreate p now).2).config = p.config := by
  unfold acquireCreate
  obtain ⟨h1, h2⟩ := create_bounds p now h
  have h3 := create_config p now
  cases hc : _create_connection p now with
  | mk copt p' =>
    rw [hc] at h1 h2 h3
    dsimp only at h1 h2 h3
    cases copt with
    | some c =>
      refine ⟨?_, ?_, ?_⟩ <;>
        simp [markUsedIn, h1, h2, h3]
    | none => exact ⟨h1, h2, h3⟩

theorem acquire_sizes (p : Pool) (now : ℚ)
    (h : p.connections.length ≤ p.config.max_connections) :
    p.connections.length ≤ ((acquire p now).2).connections.length ∧
      ((acquire p now).2).connections.length ≤ p.config.max_connections ∧
      ((acquire p now).2).config = p.config := by
  unfold acquire
  cases hav : p.available with
  | nil => exact acquireCreate_sizes p now h
  | cons cid rest =>
    dsimp only
    by_cases hfound :
      (p.connections.find? (fun c => c.connection_id = cid)).isSome
    · rw [if_pos hfound]
      refine ⟨?_, ?_, rfl⟩ <;> simp [markUsedIn, h]
    · rw [if_neg hfound]
      exact acquireCreate_sizes { p with available := rest } now h

theorem release_sizes (p : Pool) (cid : ℕ) (now : ℚ) :
    ((release p cid now).connections.length = p.connections.length) ∧
      (release p cid now).config = p.config := by
  unfold release
  by_cases hfound :
    (p.connections.find? (fun c => c.connection_id = cid)).isSome
  · rw [if_pos hfound]
    simp
  · rw [if_neg hfound]
    exact ⟨rfl, rfl⟩

theorem foldl_eraseP_length_le (l : List PooledConnection) :
    ∀ cs : List PooledConnection,
      (l.foldl
        (fun cs c => cs.eraseP (fun x => x.connection_id = c.connection_id))
        cs).length ≤ cs.length := by
  induction l with
  | nil => intro cs; simp
  | cons c rest ih =>
    intro cs
    calc (List.foldl _ (cs.eraseP
          (fun x => x.connection_id = c.connection_id)) rest).length
        ≤ (cs.eraseP (fun x => x.connection_id = c.connection_id)).length :=
          ih _
      _ ≤ cs.length :=
          (List.eraseP_sublist _).length_le

theorem topUp_sizes (now : ℚ) :
    ∀ (fuel : ℕ) (p : Pool),
      p.connections.length ≤ p.config.max_connections →
      p.config.min_connections ≤ p.config.max_connections →
      ((topUp p now fuel).connections.length
          ≤ p.config.max_connections ∧
        (topUp p now fuel).config = p.config ∧
        (p.config.min_connections ≤ fuel + p.connections.length →
          p.config.min_connections ≤ (topUp p now fuel).connections.length))
      := by
  intro fuel
  induction fuel with
  | zero =>
    intro p hmax hmm
    refine ⟨hmax, rfl, ?_⟩
    intro hf
    simpa using hf
  | succ fuel ih =>
    intro p hmax hmm
    rw [show topUp p now (fuel + 1) =
      (if p.connections.length < p.config.min_connections then
        match _create_connection p now with
        | (some c, p') =>
          topUp { p' with available := p'.available ++ [c.connection_id] }
            now fuel
        | (none, p') => p'
      else p) from rfl]
    by_cases hlt : p.connections.length < p.config.min_connections
    · rw [if_pos hlt]
      have hcreate : ¬ (p.config.max_connections ≤ p.connections.length) :=
        by omega
      have hlen := create_length p now
      have hcfg := create_config p now
      rw [if_neg hcreate] at hlen
      cases hc : _create_connection p now with
      | mk copt p' =>
        rw [hc] at hlen hcfg
        dsimp only at hlen hcfg
        cases copt with
        | some c =>
          dsimp only
          have hmaxeq : p'.config.max_connections
              = p.config.max_connections := congrArg _ hcfg
          have hmineq : p'.config.min_connections
              = p.config.min_connections := congrArg _ hcfg
          have hq := ih
            { p' with available := p'.available ++ [c.connection_id] }
            (by dsimp only; rw [hlen, hmaxeq]; omega)
            (by dsimp only; rw [hcfg]; exact hmm)
          obtain ⟨q1, q2, q3⟩ := hq
          dsimp only at q1 q2 q3
          refine ⟨le_trans q1 (le_of_eq hmaxeq), q2.trans hcfg,
            fun _ => ?_⟩
          have hq3 := q3 (by rw [hmineq, hlen]; omega)
          exact hmineq ▸ hq3
        | none =>
          exfalso
          unfold _create_connection at hc
          rw [if_neg hcreate] at hc
          simp at hc
    · rw [if_neg hlt]
      exact ⟨hmax, rfl, fun _ => by omega⟩

theorem maintenance_sizes (p : Pool) (now : ℚ)
    (hmax : p.connections.length ≤ p.config.max_connections)
    (hmm : p.config.min_connections ≤ p.config.max_connections) :
    ((_perform_maintenance p now).connections.length
        ≤ p.config.max_connections ∧
      p.config.min_connections
        ≤ (_perform_maintenance p now).connections.length ∧
      (_perform_maintenance p now).config = p.config) := by
  unfold _perform_maintenance
  set toClose := p.connections.filter
    (fun c => c.state = ConnState.idle &&
      (is_expired c p.config.max_lifetime now ||
        is_idle_timeout c p.config.idle_timeout now) &&
      decide (p.config.min_connections < p.connections.length))
  set remaining := toClose.foldl
    (fun cs c => cs.eraseP (fun x => x.connection_id = c.connection_id))
    p.connections with hrem
  have hremle : remaining.length ≤ p.connections.length :=
    foldl_eraseP_length_le toClose p.connections
  have hq := topUp_sizes now p.config.min_connections
    { p with connections := remaining }
    (by simp only; omega) (by simp only; exact hmm)
  obtain ⟨q1, q2, q3⟩ := hq
  exact ⟨q1, q3 (by simp only; omega), q2⟩

theorem start_foldl_len (now : ℚ) :
    ∀ (l : List ℕ) (q : Pool),
      q.connections.length ≤ q.config.max_connections →
      ((l.foldl (fun q _ => (_create_connection q now).2) q).connections.length
          = min (q.connections.length + l.length) q.config.max_connections ∧
        (l.foldl (fun q _ => (_create_connection q now).2) q).config
          = q.config) := by
  intro l
  induction l with
  | nil =>
    intro q hq
    simp
    omega
  | cons a rest ih =>
    intro q hq
    have hlen := create_length q now
    have hcfg := create_config q now
    by_cases hc : q.config.max_connections ≤ q.connections.length
    · rw [if_pos hc] at hlen
      obtain ⟨r1, r2⟩ := ih ((_create_connection q now).2)
        (by rw [hlen, hcfg]; exact hq)
      refine ⟨?_, by rw [show (List.foldl _ q (a :: rest)) =
        (List.foldl (fun q _ => (_create_connection q now).2)
          ((_create_connection q now).2) rest) from rfl, r2, hcfg]⟩
      rw [show (List.foldl (fun q _ => (_create_connection q now).2) q
        (a :: rest)).connections.length =
        (List.foldl (fun q _ => (_create_connection q now).2)
          ((_create_connection q now).2) rest).connections.length from rfl,
        r1, hlen, hcfg]
      simp
      omega
    · rw [if_neg hc] at hlen
      obtain ⟨r1, r2⟩ := ih ((_create_connection q now).2)
        (by rw [hlen, hcfg]; omega)
      refine ⟨?_, by rw [show (List.foldl _ q (a :: rest)) =
        (List.foldl (fun q _ => (_create_connection q now).2)
          ((_create_connection q now).2) rest) from rfl, r2, hcfg]⟩
      rw [show (List.foldl (fun q _ => (_create_connection q now).2) q
        (a :: rest)).connections.length =
        (List.foldl (fun q _ => (_create_connection q now).2)
          ((_create_connection q now).2) rest).connections.length from rfl,
        r1, hlen, hcfg]
      simp
      omega

theorem start_sizes (cfg : PoolConfig) (t0 : ℚ)
    (hmm : cfg.min_connections ≤ cfg.max_connections) :
    (start (mkPool cfg) t0).connections.length = cfg.min_connections ∧
      (start (mkPool cfg) t0).config = cfg := by
  unfold start mkPool
  rw [if_neg (by simp)]
  obtain ⟨r1, r2⟩ := start_foldl_len t0 (List.range cfg.min_connections)
    { config := cfg, connections := [], available := [], running := true,
      created_connections := 0 }
    (by simp)
  rw [r1, r2]
  simp
  omega

end ConnectionPool

/-- C9, counterexample: with the degenerate configuration
`min_connections = 2 > max_connections = 1`, `start()` can only create
one connection (`_create_connection` refuses beyond the maximum), so the
freshly started pool already holds fewer than `min_connections`
connections — the claimed floor fails before any operation runs. -/
theorem C9_pool_counterexample :
    (ConnectionPool.applyOps (ConnectionPool.start
      (ConnectionPool.mkPool ⟨2, 1, 300, 3600⟩) 0) []).connections.length
      = 1 ∧
    ¬ ((⟨2, 1, 300, 3600⟩ : ConnectionPool.PoolConfig).min_connections ≤
      (ConnectionPool.applyOps (ConnectionPool.start
        (ConnectionPool.mkPool ⟨2, 1, 300,
          3600⟩) 0) []).connections.length) := by
  constructor
  · rfl
  · intro h
    rw [show (ConnectionPool.applyOps (ConnectionPool.start
      (ConnectionPool.mkPool ⟨2, 1, 300, 3600⟩) 0) []).connections.length
      = 1 from rfl] at h
    exact absurd h (by decide)

/-- C9 (amended): provided `min_connections ≤ max_connections`, a freshly
started pool holds exactly `min_connections` connections, and after any
sequence of acquire / release / maintenance operations the total number
of pooled connections stays between `min_connections` and
`max_connections`. -/
theorem C9_pool_amended (cfg : ConnectionPool.PoolConfig)
    (hmm : cfg.min_connections ≤ cfg.max_connections) (t0 : ℚ)
    (ops : List ConnectionPool.PoolOp) :
    cfg.min_connections ≤
      (ConnectionPool.applyOps (ConnectionPool.start
        (ConnectionPool.mkPool cfg) t0) ops).connections.length ∧
    (ConnectionPool.applyOps (ConnectionPool.start
      (ConnectionPool.mkPool cfg) t0) ops).connections.length
      ≤ cfg.max_connections := by
  obtain ⟨hs1, hs2⟩ := ConnectionPool.start_sizes cfg t0 hmm
  have main : ∀ (rest : List ConnectionPool.PoolOp)
      (q : ConnectionPool.Pool), q.config = cfg →
      cfg.min_connections ≤ q.connections.length →
      q.connections.length ≤ cfg.max_connections →
      (cfg.min_connections ≤
          (ConnectionPool.applyOps q rest).connections.length ∧
        (ConnectionPool.applyOps q rest).connections.length
          ≤ cfg.max_connections ∧
        (ConnectionPool.applyOps q rest).config = cfg) := by
    intro rest
    induction rest with
    | nil => intro q hq h1 h2; exact ⟨h1, h2, hq⟩
    | cons op rest ih =>
      intro q hq h1 h2
      rw [show ConnectionPool.applyOps q (op :: rest)
        = ConnectionPool.applyOps (ConnectionPool.applyOp q op) rest
        from rfl]
      cases op with
      | opAcquire now =>
        obtain ⟨a1, a2, a3⟩ := ConnectionPool.acquire_sizes q now
          (by rw [hq]; exact h2)
        exact ih ((ConnectionPool.acquire q now).2) (a3.trans hq)
          (le_trans h1 a1) (by rw [← hq]; exact a2)
      | opRelease cid now =>
        obtain ⟨r1, r2⟩ := ConnectionPool.release_sizes q cid now
        exact ih (ConnectionPool.release q cid now) (r2.trans hq)
          (by rw [r1]; exact h1) (by rw [r1]; exact h2)
      | opMaintain now =>
        obtain ⟨m1, m2, m3⟩ := ConnectionPool.maintenance_sizes q now
          (by rw [hq]; exact h2) (by rw [hq]; exact hmm)
        exact ih (ConnectionPool._perform_maintenance q now) (m3.trans hq)
          (by rw [← hq]; exact m2) (by rw [← hq]; exact m1)
  obtain ⟨r1, r2, _⟩ := main ops
    (ConnectionPool.start (ConnectionPool.mkPool cfg) t0) hs2
    (by rw [hs1]) (by rw [hs1]; exact hmm)
  exact ⟨r1, r2⟩

/-- Witness for C9 (amended): min 1, max 2, one acquire. -/
theorem C9_pool_witness :
    (1 : ℕ) ≤ (ConnectionPool.applyOps (ConnectionPool.start
      (ConnectionPool.mkPool ⟨1, 2, 300, 3600⟩) 0)
      [ConnectionPool.PoolOp.opAcquire 1]).connections.length ∧
    (ConnectionPool.applyOps (ConnectionPool.start
      (ConnectionPool.mkPool ⟨1, 2, 300, 3600⟩) 0)
      [ConnectionPool.PoolOp.opAcquire 1]).connections.length ≤ 2 :=
  C9_pool_amended ⟨1, 2, 300, 3600⟩ (by decide) 0
    [ConnectionPool.PoolOp.opAcquire 1]

/-! ## Smooth Weighted Round Robin (`src/plugins/weighted_round_robin.py`)

`select_backend` first registers a default weight of 1 for any backend of
the passed list that has none, then runs the interleaved
weighted-round-robin loop over `current_index` / `current_weight`.  The
embedding works over `ws : List ℕ`, the registered weights of the fixed
backend list by position (all present and positive:
`set_backend_weight` rejects non-positive weights and the defaulting
loop fills the rest with 1), so `self.backend_weights.get(backend, 1)`
for the backend at position `j` is `ws.getD j 1`.  The `while True` loop
is embedded with explicit fuel; termination (claim C8) shows a
sufficient fuel below. -/

namespace WeightedRoundRobin

/-- `WeightedRoundRobinPlugin._gcd_list` (the source never calls it on an
empty list). -/
def _gcd_list : List ℕ → ℕ
  | [] => 0
  | x :: xs => xs.foldl Nat.gcd x

/-- `max_weight` as recomputed by `_recalculate_weights`
(Python `max(weights)`). -/
def max_weight (ws : List ℕ) : ℕ := ws.foldl max 0

structure WRRState where
  current_index : ℕ
  current_weight : ℤ
deriving DecidableEq, Repr

/-- The `while True:` body of `select_backend`.  One constructor layer of
`Option` is the fuel (`none` = fuel exhausted, which the real loop does
not have); the payload is the Python result (`None` or the selected
position) together with the final `(current_index, current_weight)`. -/
def selectLoop (ws : List ℕ) (maxW gcdW : ℤ) :
    ℕ → ℕ → ℤ → Option (Option ℕ × ℕ × ℤ)
  | 0, _, _ => none
  | fuel + 1, i, cw =>
    let i2 := (i + 1) % ws.length
    if i2 = 0 then
      let c := cw - gcdW
      let cw2 := if c ≤ 0 then maxW else c
      if cw2 = 0 then some (none, i2, cw2)
      else if cw2 ≤ (ws.getD i2 1 : ℤ) then some (some i2, i2, cw2)
      else selectLoop ws maxW gcdW fuel i2 cw2
    else
      if cw ≤ (ws.getD i2 1 : ℤ) then some (some i2, i2, cw)
      else selectLoop ws maxW gcdW fuel i2 cw

/-- `WeightedRoundRobinPlugin.select_backend` over the weight list. -/
def select_backend (ws : List ℕ) (st : WRRState) (fuel : ℕ) :
    Option (Option ℕ × WRRState) :=
  if ws.isEmpty then some (none, st)
  else
    match selectLoop ws (max_weight ws) (_gcd_list ws) fuel
      st.current_index st.current_weight with
    | some (sel, i, cw) => some (sel, ⟨i, cw⟩)
    | none => none

theorem selectLoop_succ (ws : List ℕ) (maxW gcdW : ℤ) (fuel i : ℕ)
    (cw : ℤ) :
    selectLoop ws maxW gcdW (fuel + 1) i cw =
      (let i2 := (i + 1) % ws.length
      if i2 = 0 then
        let c := cw - gcdW
        let cw2 := if c ≤ 0 then maxW else c
        if cw2 = 0 then some (none, i2, cw2)
        else if cw2 ≤ (ws.getD i2 1 : ℤ) then some (some i2, i2, cw2)
        else selectLoop ws maxW gcdW fuel i2 cw2
      else
        if cw ≤ (ws.getD i2 1 : ℤ) then some (some i2, i2, cw)
        else selectLoop ws maxW gcdW fuel i2 cw) := rfl

theorem selectLoop_mono (ws : List ℕ) (maxW gcdW : ℤ) :
    ∀ (fuel fuel2 : ℕ), fuel ≤ fuel2 → ∀ (i : ℕ) (cw : ℤ)
      (r : Option ℕ × ℕ × ℤ),
      selectLoop ws maxW gcdW fuel i cw = some r →
      selectLoop ws maxW gcdW fuel2 i cw = some r := by
  intro fuel
  induction fuel with
  | zero =>
    intro fuel2 _ i cw r h
    exact Option.noConfusion h
  | succ fuel ih =>
    intro fuel2 hle i cw r h
    obtain ⟨fuel3, rfl⟩ : ∃ f3, fuel2 = f3 + 1 := by
      cases fuel2 with
      | zero => omega
      | succ f3 => exact ⟨f3, rfl⟩
    rw [selectLoop_succ] at h
    rw [selectLoop_succ]
    simp only at h ⊢
    by_cases h0 : (i + 1) % ws.length = 0
    · rw [if_pos h0] at h ⊢
      by_cases hz : (if cw - gcdW ≤ 0 then maxW else cw - gcdW) = 0
      · rw [if_pos hz] at h ⊢; exact h
      · rw [if_neg hz] at h ⊢
        by_cases hsel : (if cw - gcdW ≤ 0 then maxW else cw - gcdW) ≤
            (ws.getD ((i + 1) % ws.length) 1 : ℤ)
        · rw [if_pos hsel] at h ⊢; exact h
        · rw [if_neg hsel] at h ⊢
          exact ih fuel3 (by omega) _ _ r h
    · rw [if_neg h0] at h ⊢
      by_cases hsel : cw ≤ (ws.getD ((i + 1) % ws.length) 1 : ℤ)
      · rw [if_pos hsel] at h ⊢; exact h
      · rw [if_neg hsel] at h ⊢
        exact ih fuel3 (by omega) _ _ r h

/-! Facts about the recomputed `gcd_weight` and `max_weight`. -/

theorem foldl_gcd_dvd : ∀ (xs : List ℕ) (a : ℕ),
    (xs.foldl Nat.gcd a) ∣ a ∧ ∀ w ∈ xs, (xs.foldl Nat.gcd a) ∣ w := by
  intro xs
  induction xs with
  | nil => intro a; exact ⟨dvd_refl a, by intro w hw; simp at hw⟩
  | cons y ys ih =>
    intro a
    obtain ⟨h1, h2⟩ := ih (Nat.gcd a y)
    refine ⟨h1.trans (Nat.gcd_dvd_left a y), ?_⟩
    intro w hw
    rcases List.mem_cons.mp hw with hw | hw
    · exact hw ▸ h1.trans (Nat.gcd_dvd_right a y)
    · exact h2 w hw

theorem foldl_gcd_pos : ∀ (xs : List ℕ) (a : ℕ), 0 < a →
    0 < xs.foldl Nat.gcd a := by
  intro xs
  induction xs with
  | nil => intro a ha; exact ha
  | cons y ys ih =>
    intro a ha
    exact ih (Nat.gcd a y) (Nat.gcd_pos_of_pos_left y ha)

theorem foldl_max_le : ∀ (xs : List ℕ) (a : ℕ),
    a ≤ xs.foldl max a ∧ ∀ w ∈ xs, w ≤ xs.foldl max a := by
  intro xs
  induction xs with
  | nil => intro a; exact ⟨le_refl a, by intro w hw; simp at hw⟩
  | cons y ys ih =>
    intro a
    obtain ⟨h1, h2⟩ := ih (max a y)
    rw [show (y :: ys).foldl max a = ys.foldl max (max a y) from rfl]
    refine ⟨le_trans (le_max_left a y) h1, ?_⟩
    intro w hw
    rcases List.mem_cons.mp hw with hw | hw
    · rw [hw]
      exact le_trans (le_max_right a y) h1
    · exact h2 w hw

theorem foldl_max_mem : ∀ (xs : List ℕ) (a : ℕ),
    xs.foldl max a = a ∨ xs.foldl max a ∈ xs := by
  intro xs
  induction xs with
  | nil => intro a; exact Or.inl rfl
  | cons y ys ih =>
    intro a
    rcases ih (max a y) with h | h
    · rcases max_cases a y with ⟨hm, _⟩ | ⟨hm, _⟩
      · exact Or.inl (by rw [show (y :: ys).foldl max a
          = ys.foldl max (max a y) from rfl, h, hm])
      · exact Or.inr (by rw [show (y :: ys).foldl max a
          = ys.foldl max (max a y) from rfl, h, hm]; exact
          List.mem_cons_self y ys)
    · exact Or.inr (List.mem_cons_of_mem y h)

theorem gcd_list_pos (ws : List ℕ) (hne : ws ≠ [])
    (hw : ∀ w ∈ ws, 1 ≤ w) : 0 < _gcd_list ws := by
  cases ws with
  | nil => exact absurd rfl hne
  | cons x xs =>
    exact foldl_gcd_pos xs x (hw x (List.mem_cons_self x xs))

theorem gcd_list_dvd (ws : List ℕ) : ∀ w ∈ ws, _gcd_list ws ∣ w := by
  cases ws with
  | nil => intro w hw; simp at hw
  | cons x xs =>
    intro w hmem
    obtain ⟨h1, h2⟩ := foldl_gcd_dvd xs x
    rcases List.mem_cons.mp hmem with hmem | hmem
    · exact hmem ▸ h1
    · exact h2 w hmem

theorem le_max_weight (ws : List ℕ) : ∀ w ∈ ws, w ≤ max_weight ws :=
  fun w hw => (foldl_max_le ws 0).2 w hw

theorem max_weight_mem (ws : List ℕ) (hne : ws ≠ [])
    (hw : ∀ w ∈ ws, 1 ≤ w) : max_weight ws ∈ ws := by
  rcases foldl_max_mem ws 0 with h | h
  · exfalso
    cases ws with
    | nil => exact absurd rfl hne
    | cons x xs =>
      have hx := (foldl_max_le (x :: xs) 0).2 x (List.mem_cons_self x xs)
      have h1 := hw x (List.mem_cons_self x xs)
      have h0 : max_weight (x :: xs) = 0 := h
      omega
  · exact h

theorem max_weight_pos (ws : List ℕ) (hne : ws ≠ [])
    (hw : ∀ w ∈ ws, 1 ≤ w) : 1 ≤ max_weight ws :=
  hw _ (max_weight_mem ws hne hw)

theorem gcd_dvd_max_weight (ws : List ℕ) (hne : ws ≠ [])
    (hw : ∀ w ∈ ws, 1 ≤ w) : _gcd_list ws ∣ max_weight ws :=
  gcd_list_dvd ws _ (max_weight_mem ws hne hw)

theorem gcd_le_max_weight (ws : List ℕ) (hne : ws ≠ [])
    (hw : ∀ w ∈ ws, 1 ≤ w) : _gcd_list ws ≤ max_weight ws :=
  Nat.le_of_dvd (by have := max_weight_pos ws hne hw; omega)
    (gcd_dvd_max_weight ws hne hw)

theorem exists_max_idx (ws : List ℕ) (hne : ws ≠ [])
    (hw : ∀ w ∈ ws, 1 ≤ w) :
    ∃ j, j < ws.length ∧ ws.getD j 1 = max_weight ws := by
  obtain ⟨j, hj, hval⟩ := List.getElem_of_mem (max_weight_mem ws hne hw)
  exact ⟨j, hj, by rw [List.getD_eq_getElem ws 1 hj, hval]⟩

theorem getD_le_max (ws : List ℕ) (j : ℕ) (hj : j < ws.length) :
    ws.getD j 1 ≤ max_weight ws := by
  rw [List.getD_eq_getElem ws 1 hj]
  exact le_max_weight ws _ (List.getElem_mem hj)

theorem one_le_getD (ws : List ℕ) (hw : ∀ w ∈ ws, 1 ≤ w) (j : ℕ)
    (hj : j < ws.length) : 1 ≤ ws.getD j 1 := by
  rw [List.getD_eq_getElem ws 1 hj]
  exact hw _ (List.getElem_mem hj)

/-- A result of the loop that did select a backend: the selected position
is in range, it is the final `current_index`, and its weight covers the
final `current_weight`. -/
def GoodResult (ws : List ℕ) (r : Option (Option ℕ × ℕ × ℤ)) : Prop :=
  ∃ j cw2, r = some (some j, j, cw2) ∧ j < ws.length ∧
    cw2 ≤ (ws.getD j 1 : ℤ)

/-- The wrap update of `current_weight` keeps it within `(−∞, max]`,
positive, and the dead `current_weight == 0` branch stays dead. -/
theorem wrap_cw_facts (ws : List ℕ) (hne : ws ≠ [])
    (hw : ∀ w ∈ ws, 1 ≤ w) (cw : ℤ) (hcw : cw ≤ (max_weight ws : ℤ)) :
    (if cw - (_gcd_list ws : ℤ) ≤ 0 then (max_weight ws : ℤ)
        else cw - (_gcd_list ws : ℤ)) ≤ (max_weight ws : ℤ) ∧
      ¬ ((if cw - (_gcd_list ws : ℤ) ≤ 0 then (max_weight ws : ℤ)
        else cw - (_gcd_list ws : ℤ)) = 0) := by
  have hg := gcd_list_pos ws hne hw
  have hM := max_weight_pos ws hne hw
  by_cases hc : cw - (_gcd_list ws : ℤ) ≤ 0
  · rw [if_pos hc]
    constructor
    · exact le_refl _
    · intro h
      omega
  · rw [if_neg hc]
    constructor
    · omega
    · intro h
      omega


/-- Once `current_weight ≤ max_weight`, the loop selects a backend within
`d + 1` iterations, where `d` measures the distance to the index holding
the maximum weight. -/
theorem loop_reaches_max (ws : List ℕ) (hne : ws ≠ [])
    (hw : ∀ w ∈ ws, 1 ≤ w) (jM : ℕ) (hjM : jM < ws.length)
    (hjMv : ws.getD jM 1 = max_weight ws) :
    ∀ (d i : ℕ) (cw : ℤ) (fuel : ℕ),
      cw ≤ (max_weight ws : ℤ) →
      (i + 1 + d) % ws.length = jM →
      d < fuel →
      GoodResult ws (selectLoop ws (max_weight ws) (_gcd_list ws) fuel i cw)
      := by
  have hn : 0 < ws.length := List.length_pos.mpr hne
  intro d
  induction d with
  | zero =>
    intro i cw fuel hcw hidx hfuel
    obtain ⟨f, rfl⟩ : ∃ f, fuel = f + 1 := by
      cases fuel with
      | zero => omega
      | succ f => exact ⟨f, rfl⟩
    rw [selectLoop_succ]
    dsimp only
    have hi2 : (i + 1) % ws.length = jM := by simpa using hidx
    by_cases h0 : (i + 1) % ws.length = 0
    · have hjM0 : jM = 0 := by omega
      rw [h0]
      rw [if_pos rfl]
      obtain ⟨hle, hnz⟩ := wrap_cw_facts ws hne hw cw hcw
      rw [if_neg hnz]
      have hval : ws.getD 0 1 = max_weight ws := by
        rw [← hjM0]; exact hjMv
      rw [if_pos (by rw [hval]; exact hle)]
      exact ⟨0, _, rfl, hn, by rw [hval]; exact hle⟩
    · rw [if_neg h0, hi2, hjMv]
      rw [if_pos hcw]
      exact ⟨jM, cw, rfl, hjM, by rw [hjMv]; exact hcw⟩
  | succ d ih =>
    intro i cw fuel hcw hidx hfuel
    obtain ⟨f, rfl⟩ : ∃ f, fuel = f + 1 := by
      cases fuel with
      | zero => omega
      | succ f => exact ⟨f, rfl⟩
    rw [selectLoop_succ]
    dsimp only
    have hidx2 : ((i + 1) % ws.length + 1 + d) % ws.length = jM := by
      rw [show (i + 1) % ws.length + 1 + d
        = (i + 1) % ws.length + (1 + d) from by ring, Nat.mod_add_mod,
        show i + 1 + (1 + d) = i + 1 + (d + 1) from by ring]
      exact hidx
    by_cases h0 : (i + 1) % ws.length = 0
    · rw [if_pos h0]
      obtain ⟨hle, hnz⟩ := wrap_cw_facts ws hne hw cw hcw
      rw [if_neg hnz]
      by_cases hsel : (if cw - (_gcd_list ws : ℤ) ≤ 0 then
          (max_weight ws : ℤ) else cw - (_gcd_list ws : ℤ)) ≤
          (ws.getD ((i + 1) % ws.length) 1 : ℤ)
      · rw [if_pos hsel]
        exact ⟨(i + 1) % ws.length, _, rfl, Nat.mod_lt _ hn, hsel⟩
      · rw [if_neg hsel]
        exact ih ((i + 1) % ws.length) _ f hle hidx2 (by omega)
    · rw [if_neg h0]
      by_cases hsel : cw ≤ (ws.getD ((i + 1) % ws.length) 1 : ℤ)
      · rw [if_pos hsel]
        exact ⟨(i + 1) % ws.length, cw, rfl, Nat.mod_lt _ hn, hsel⟩
      · rw [if_neg hsel]
        exact ih ((i + 1) % ws.length) cw f hcw hidx2 (by omega)

/-- Distance instantiation: from any state with
`current_weight ≤ max_weight`, fuel `≥ len(backends)` suffices. -/
theorem loop_some_of_le_max (ws : List ℕ) (hne : ws ≠ [])
    (hw : ∀ w ∈ ws, 1 ≤ w) (i : ℕ) (cw : ℤ) (fuel : ℕ)
    (hcw : cw ≤ (max_weight ws : ℤ)) (hfuel : ws.length ≤ fuel) :
    GoodResult ws (selectLoop ws (max_weight ws) (_gcd_list ws) fuel i cw)
    := by
  have hn : 0 < ws.length := List.length_pos.mpr hne
  obtain ⟨jM, hjM, hjMv⟩ := exists_max_idx ws hne hw
  set r := (i + 1) % ws.length with hr
  have hrlt : r < ws.length := Nat.mod_lt _ hn
  set d := (jM + ws.length - r) % ws.length with hd
  have hdlt : d < ws.length := Nat.mod_lt _ hn
  have hidx : (i + 1 + d) % ws.length = jM := by
    rw [show i + 1 + d = (i + 1) + d from rfl, Nat.add_mod (i + 1) d,
      ← hr, Nat.mod_eq_of_lt hdlt]
    by_cases hc : r ≤ jM
    · have hdv : d = jM - r := by
        rw [hd, show jM + ws.length - r = (jM - r) + ws.length from by
          omega, Nat.add_mod_right, Nat.mod_eq_of_lt (by omega)]
      rw [hdv, show r + (jM - r) = jM from by omega,
        Nat.mod_eq_of_lt hjM]
    · have hdv : d = jM + ws.length - r := by
        rw [hd, Nat.mod_eq_of_lt (by omega)]
      rw [hdv, show r + (jM + ws.length - r) = jM + ws.length from by
        omega, Nat.add_mod_right, Nat.mod_eq_of_lt hjM]
  exact loop_reaches_max ws hne hw jM hjM hjMv d i cw fuel hcw hidx
    (by omega)

/-- C8 core: from any stored state, the loop terminates with a selected
backend given fuel `len * ((current_weight − max_weight)⁺ + 2)`. -/
theorem loop_terminates (ws : List ℕ) (hne : ws ≠ [])
    (hw : ∀ w ∈ ws, 1 ≤ w) :
    ∀ (k : ℕ) (cw : ℤ), (cw - (max_weight ws : ℤ)).toNat ≤ k →
      ∀ (i fuel : ℕ), ws.length * (k + 2) ≤ fuel →
      GoodResult ws (selectLoop ws (max_weight ws) (_gcd_list ws) fuel i cw)
      := by
  have hn : 0 < ws.length := List.length_pos.mpr hne
  have hg := gcd_list_pos ws hne hw
  have hgM := gcd_le_max_weight ws hne hw
  intro k
  induction k with
  | zero =>
    intro cw hk i fuel hfuel
    have hcw : cw ≤ (max_weight ws : ℤ) := by omega
    exact loop_some_of_le_max ws hne hw i cw fuel hcw (by omega)
  | succ k ih =>
    intro cw hk i fuel hfuel
    by_cases hcw : cw ≤ (max_weight ws : ℤ)
    · exact loop_some_of_le_max ws hne hw i cw fuel hcw
        (by
          have h3 : ws.length * (k + 1 + 2)
              = ws.length * (k + 2) + ws.length := by ring
          omega)
    · push_neg at hcw
      have inner : ∀ (s i2 fuel2 : ℕ), i2 % ws.length + s = ws.length →
          s + ws.length * (k + 2) ≤ fuel2 →
          GoodResult ws
            (selectLoop ws (max_weight ws) (_gcd_list ws) fuel2 i2 cw)
          := by
        intro s
        induction s with
        | zero =>
          intro i2 fuel2 hs _
          exact absurd hs (by have := Nat.mod_lt i2 hn; omega)
        | succ s ihs =>
          intro i2 fuel2 hs hfuel2
          obtain ⟨f, rfl⟩ : ∃ f, fuel2 = f + 1 := by
            cases fuel2 with
            | zero => omega
            | succ f => exact ⟨f, rfl⟩
          rw [selectLoop_succ]
          dsimp only
          have hstep : (i2 + 1) % ws.length = (ws.length - s) % ws.length
            := by
            rw [← Nat.mod_add_mod]
            congr 1
            omega
          rcases Nat.eq_zero_or_pos s with hs0 | hspos
          · subst hs0
            have h0 : (i2 + 1) % ws.length = 0 := by
              rw [hstep]
              simp
            rw [if_pos h0]
            have hcpos : ¬ (cw - (_gcd_list ws : ℤ) ≤ 0) := by
              push_neg
              omega
            rw [if_neg hcpos, if_neg (by omega)]
            by_cases hsel : cw - (_gcd_list ws : ℤ) ≤
                (ws.getD ((i2 + 1) % ws.length) 1 : ℤ)
            · rw [if_pos hsel]
              exact ⟨(i2 + 1) % ws.length, _, rfl, Nat.mod_lt _ hn, hsel⟩
            · rw [if_neg hsel]
              exact ih (cw - (_gcd_list ws : ℤ)) (by omega) _ f (by omega)
          · have h0 : ¬ ((i2 + 1) % ws.length = 0) := by
              rw [hstep, Nat.mod_eq_of_lt (by omega)]
              omega
            rw [if_neg h0]
            have hwle : (ws.getD ((i2 + 1) % ws.length) 1 : ℤ) ≤
                (max_weight ws : ℤ) := by
              exact_mod_cast getD_le_max ws _ (Nat.mod_lt _ hn)
            rw [if_neg (by omega)]
            exact ihs ((i2 + 1) % ws.length) f
              (by
                rw [Nat.mod_eq_of_lt (Nat.mod_lt _ hn), hstep,
                  Nat.mod_eq_of_lt (show ws.length - s < ws.length by omega)]
                omega)
              (by omega)
      exact inner (ws.length - i % ws.length) i fuel
        (by have := Nat.mod_lt i hn; omega)
        (by
          have h2 := Nat.mod_lt i hn
          have h3 : ws.length * (k + 1 + 2)
              = ws.length * (k + 2) + ws.length := by ring
          omega)

/-- Fuel sufficient for one `select_backend` call from a given state. -/
def wrrFuel (ws : List ℕ) (st : WRRState) : ℕ :=
  ws.length * ((st.current_weight - (max_weight ws : ℤ)).toNat + 2)

end WeightedRoundRobin

/-- C8: for every non-empty backend list with positive registered
weights, `select_backend` terminates from any stored
`(current_index, current_weight)` state: the inner loop reaches a
backend whose weight is at least the running `current_weight` and
returns it (never the `None` of an empty weight set, and never an
unbounded spin). -/
theorem C8_wrr_terminates (ws : List ℕ)
    (st : WeightedRoundRobin.WRRState) (hne : ws ≠ [])
    (hw : ∀ w ∈ ws, 1 ≤ w) :
    ∃ j cw2,
      WeightedRoundRobin.select_backend ws st
          (WeightedRoundRobin.wrrFuel ws st)
        = some (some j, ⟨j, cw2⟩) ∧
      j < ws.length ∧ cw2 ≤ (ws.getD j 1 : ℤ) := by
  have hbe : ws.isEmpty = false := by
    cases ws with
    | nil => exact absurd rfl hne
    | cons a t => rfl
  obtain ⟨j, cw2, hr, hj, hcw⟩ :=
    WeightedRoundRobin.loop_terminates ws hne hw
      ((st.current_weight
        - (WeightedRoundRobin.max_weight ws : ℤ)).toNat)
      st.current_weight (le_refl _) st.current_index
      (WeightedRoundRobin.wrrFuel ws st) (le_refl _)
  refine ⟨j, cw2, ?_, hj, hcw⟩
  unfold WeightedRoundRobin.select_backend
  rw [hbe]
  simp only [Bool.false_eq_true, if_false]
  rw [hr]

/-- Witness for C8: weights `[2, 1]` from the initial state. -/
theorem C8_wrr_witness :
    (∃ j cw2,
      WeightedRoundRobin.select_backend [2, 1] ⟨0, 0⟩
          (WeightedRoundRobin.wrrFuel [2, 1] ⟨0, 0⟩)
        = some (some j, ⟨j, cw2⟩) ∧
      j < [2, 1].length ∧ cw2 ≤ (([2, 1].getD j 1 : ℕ) : ℤ)) :=
  C8_wrr_terminates [2, 1] ⟨0, 0⟩ (by decide) (by decide)

namespace WeightedRoundRobin

/-- Fuel with one lap of slack, enough to survive unfolding single loop
iterations in the step lemmas below. -/
def stepFuel (ws : List ℕ) (cw : ℤ) : ℕ :=
  ws.length * ((cw - (max_weight ws : ℤ)).toNat + 2) + ws.length

/-- The total one-selection step function on
`(current_index, current_weight)` states, defined through `selectLoop`
at a provably sufficient fuel.  The fallback branch is dead for the
non-empty positive-weight lists the claims quantify over. -/
def wrrStep (ws : List ℕ) (σ : ℕ × ℤ) : ℕ × ℤ :=
  match selectLoop ws (max_weight ws) (_gcd_list ws)
      (stepFuel ws σ.2) σ.1 σ.2 with
  | some (some _, i2, cw2) => (i2, cw2)
  | _ => σ

theorem loop_stepFuel_good (ws : List ℕ) (hne : ws ≠ [])
    (hw : ∀ w ∈ ws, 1 ≤ w) (i : ℕ) (cw : ℤ) :
    GoodResult ws (selectLoop ws (max_weight ws) (_gcd_list ws)
      (stepFuel ws cw) i cw) :=
  loop_terminates ws hne hw ((cw - (max_weight ws : ℤ)).toNat) cw
    (le_refl _) i (stepFuel ws cw) (by unfold stepFuel; omega)

/-- Any run of the loop that selects determines `wrrStep`. -/
theorem wrrStep_eq (ws : List ℕ) (hne : ws ≠ [])
    (hw : ∀ w ∈ ws, 1 ≤ w) (i : ℕ) (cw : ℤ) (j : ℕ) (cw2 : ℤ)
    (fuel : ℕ)
    (h : selectLoop ws (max_weight ws) (_gcd_list ws) fuel i cw
      = some (some j, j, cw2)) :
    wrrStep ws (i, cw) = (j, cw2) := by
  obtain ⟨j2, cw3, hr, _, _⟩ := loop_stepFuel_good ws hne hw i cw
  have h1 := selectLoop_mono ws (max_weight ws) (_gcd_list ws)
    fuel (fuel + stepFuel ws cw) (by omega) i cw _ h
  have h2 := selectLoop_mono ws (max_weight ws) (_gcd_list ws)
    (stepFuel ws cw) (fuel + stepFuel ws cw) (by omega) i cw _ hr
  rw [h1] at h2
  have h3 : (some j, j, cw2) = (some j2, j2, cw3) :=
    Option.some_inj.mp h2
  unfold wrrStep
  rw [hr]
  dsimp only
  rw [show (j2, cw3) = (j, cw2) from by
    injection h3 with ha hb
    injection hb with hc hd
    rw [hc, hd]]

/-- Step lemma S1: a selection without wrapping. -/
theorem step_select (ws : List ℕ) (hne : ws ≠ [])
    (hw : ∀ w ∈ ws, 1 ≤ w) (i : ℕ) (cw : ℤ)
    (hi : i + 1 < ws.length) (hsel : cw ≤ (ws.getD (i + 1) 1 : ℤ)) :
    wrrStep ws (i, cw) = (i + 1, cw) := by
  apply wrrStep_eq ws hne hw i cw (i + 1) cw 1
  rw [selectLoop_succ]
  dsimp only
  rw [Nat.mod_eq_of_lt hi]
  rw [if_neg (by omega), if_pos hsel]

/-- Step lemma S2: a failed comparison without wrapping just advances
the scan. -/
theorem step_skip (ws : List ℕ) (hne : ws ≠ [])
    (hw : ∀ w ∈ ws, 1 ≤ w) (i : ℕ) (cw : ℤ)
    (hi : i + 1 < ws.length) (hsel : (ws.getD (i + 1) 1 : ℤ) < cw) :
    wrrStep ws (i, cw) = wrrStep ws (i + 1, cw) := by
  obtain ⟨j, cw2, hr, _, _⟩ := loop_stepFuel_good ws hne hw (i + 1) cw
  have hstep : selectLoop ws (max_weight ws) (_gcd_list ws)
      (stepFuel ws cw + 1) i cw
      = selectLoop ws (max_weight ws) (_gcd_list ws)
        (stepFuel ws cw) (i + 1) cw := by
    rw [selectLoop_succ]
    dsimp only
    rw [Nat.mod_eq_of_lt hi]
    rw [if_neg (by omega), if_neg (by omega)]
  have hL : wrrStep ws (i, cw) = (j, cw2) := by
    apply wrrStep_eq ws hne hw i cw j cw2 (stepFuel ws cw + 1)
    rw [hstep]
    exact hr
  have hR : wrrStep ws (i + 1, cw) = (j, cw2) :=
    wrrStep_eq ws hne hw (i + 1) cw j cw2 _ hr
  rw [hL, hR]

/-- The wrap update of `current_weight`, as the source computes it. -/
def resetCw (ws : List ℕ) (cw : ℤ) : ℤ :=
  if cw - (_gcd_list ws : ℤ) ≤ 0 then (max_weight ws : ℤ)
  else cw - (_gcd_list ws : ℤ)

theorem resetCw_pos (ws : List ℕ) (hne : ws ≠ [])
    (hw : ∀ w ∈ ws, 1 ≤ w) (cw : ℤ) : 0 < resetCw ws cw := by
  have hM := max_weight_pos ws hne hw
  unfold resetCw
  by_cases hc : cw - (_gcd_list ws : ℤ) ≤ 0
  · rw [if_pos hc]; omega
  · rw [if_neg hc]; omega

theorem resetCw_le_max (ws : List ℕ) (hne : ws ≠ [])
    (hw : ∀ w ∈ ws, 1 ≤ w) (cw : ℤ) (hcw : cw ≤ (max_weight ws : ℤ)) :
    resetCw ws cw ≤ (max_weight ws : ℤ) := by
  have hg := gcd_list_pos ws hne hw
  unfold resetCw
  by_cases hc : cw - (_gcd_list ws : ℤ) ≤ 0
  · rw [if_pos hc]
  · rw [if_neg hc]; omega

/-- Step lemma S3a: wrapping with a selection at position 0. -/
theorem step_wrap_select (ws : List ℕ) (hne : ws ≠ [])
    (hw : ∀ w ∈ ws, 1 ≤ w) (cw : ℤ) (hcw : cw ≤ (max_weight ws : ℤ))
    (hsel : resetCw ws cw ≤ (ws.getD 0 1 : ℤ)) :
    wrrStep ws (ws.length - 1, cw) = (0, resetCw ws cw) := by
  have hn : 0 < ws.length := List.length_pos.mpr hne
  apply wrrStep_eq ws hne hw (ws.length - 1) cw 0 (resetCw ws cw) 1
  rw [selectLoop_succ]
  dsimp only
  have h0 : (ws.length - 1 + 1) % ws.length = 0 := by
    rw [show ws.length - 1 + 1 = ws.length from by omega]
    simp
  rw [h0, if_pos rfl]
  obtain ⟨_, hnz⟩ := wrap_cw_facts ws hne hw cw hcw
  rw [if_neg hnz]
  rw [if_pos (by exact hsel)]
  rfl

/-- Step lemma S3b: wrapping with a failed comparison at position 0
continues the scan of the new round from position 0. -/
theorem step_wrap_skip (ws : List ℕ) (hne : ws ≠ [])
    (hw : ∀ w ∈ ws, 1 ≤ w) (cw : ℤ) (hcw : cw ≤ (max_weight ws : ℤ))
    (hsel : (ws.getD 0 1 : ℤ) < resetCw ws cw) :
    wrrStep ws (ws.length - 1, cw) = wrrStep ws (0, resetCw ws cw) := by
  have hn : 0 < ws.length := List.length_pos.mpr hne
  obtain ⟨j, cw2, hr, _, _⟩ :=
    loop_stepFuel_good ws hne hw 0 (resetCw ws cw)
  have hfuel : stepFuel ws (resetCw ws cw) ≤ stepFuel ws cw := by
    have hle := resetCw_le_max ws hne hw cw hcw
    unfold stepFuel
    have h1 : (resetCw ws cw - (max_weight ws : ℤ)).toNat = 0 := by
      omega
    rw [h1]
    have h2 : 2 ≤ (cw - (max_weight ws : ℤ)).toNat + 2 := by omega
    have := Nat.mul_le_mul_left ws.length h2
    omega
  have hr2 := selectLoop_mono ws (max_weight ws) (_gcd_list ws)
    (stepFuel ws (resetCw ws cw)) (stepFuel ws cw) hfuel 0
    (resetCw ws cw) _ hr
  have hstep : selectLoop ws (max_weight ws) (_gcd_list ws)
      (stepFuel ws cw + 1) (ws.length - 1) cw
      = selectLoop ws (max_weight ws) (_gcd_list ws)
        (stepFuel ws cw) 0 (resetCw ws cw) := by
    rw [selectLoop_succ]
    dsimp only
    have h0 : (ws.length - 1 + 1) % ws.length = 0 := by
      rw [show ws.length - 1 + 1 = ws.length from by omega]
      simp
    rw [h0, if_pos rfl]
    obtain ⟨_, hnz⟩ := wrap_cw_facts ws hne hw cw hcw
    rw [if_neg hnz]
    rw [if_neg (by
      show ¬ (resetCw ws cw ≤ (ws.getD 0 1 : ℤ))
      omega)]
    rfl
  have hL : wrrStep ws (ws.length - 1, cw) = (j, cw2) := by
    apply wrrStep_eq ws hne hw (ws.length - 1) cw j cw2
      (stepFuel ws cw + 1)
    rw [hstep]
    exact hr2
  have hR : wrrStep ws (0, resetCw ws cw) = (j, cw2) :=
    wrrStep_eq ws hne hw 0 (resetCw ws cw) j cw2 _ hr
  rw [hL, hR]

end WeightedRoundRobin

namespace WeightedRoundRobin

/-- Indices in `[j, j+len)` whose weight passes the comparison against a
fixed `current_weight` — the selections the loop makes while scanning one
round without a wrap. -/
def scanIdx (ws : List ℕ) (cw : ℤ) : ℕ → ℕ → List ℕ
  | 0, _ => []
  | len + 1, j =>
    if cw ≤ (ws.getD j 1 : ℤ) then j :: scanIdx ws cw len (j + 1)
    else scanIdx ws cw len (j + 1)

/-- Last element with a default. -/
def lastD (l : List ℕ) (d : ℕ) : ℕ := l.getLast?.getD d

/-- The trace of `k` consecutive selections driven by `wrrStep`:
the list of selected positions and the final state. -/
def run (ws : List ℕ) (σ : ℕ × ℤ) : ℕ → List ℕ × (ℕ × ℤ)
  | 0 => ([], σ)
  | k + 1 =>
    ((wrrStep ws σ).1 :: (run ws (wrrStep ws σ) k).1,
      (run ws (wrrStep ws σ) k).2)

theorem lastD_cons (a : ℕ) (l : List ℕ) (d : ℕ) :
    lastD (a :: l) d = lastD l a := by
  cases l with
  | nil => rfl
  | cons b t => rfl

theorem lastD_ne_nil (l : List ℕ) (d d2 : ℕ) (h : l ≠ []) :
    lastD l d = lastD l d2 := by
  cases l with
  | nil => exact absurd rfl h
  | cons a t =>
    unfold lastD
    rw [List.getLast?_eq_getLast (a :: t) (by simp)]
    rfl

theorem lastD_mem (l : List ℕ) (d : ℕ) (h : l ≠ []) : lastD l d ∈ l := by
  cases l with
  | nil => exact absurd rfl h
  | cons a t =>
    unfold lastD
    rw [List.getLast?_eq_getLast (a :: t) (by simp)]
    exact List.getLast_mem _

theorem scanIdx_mem (ws : List ℕ) (cw : ℤ) :
    ∀ (len j b : ℕ), b ∈ scanIdx ws cw len j ↔
      (j ≤ b ∧ b < j + len ∧ cw ≤ (ws.getD b 1 : ℤ)) := by
  intro len
  induction len with
  | zero =>
    intro j b
    rw [show scanIdx ws cw 0 j = [] from rfl]
    simp
    omega
  | succ len ih =>
    intro j b
    rw [show scanIdx ws cw (len + 1) j =
      (if cw ≤ (ws.getD j 1 : ℤ) then j :: scanIdx ws cw len (j + 1)
      else scanIdx ws cw len (j + 1)) from rfl]
    by_cases hj : cw ≤ (ws.getD j 1 : ℤ)
    · rw [if_pos hj]
      constructor
      · intro hmem
        rcases List.mem_cons.mp hmem with hb | hb
        · exact ⟨hb ▸ le_refl j, by omega, hb ▸ hj⟩
        · have := (ih (j + 1) b).mp hb
          exact ⟨by omega, by omega, this.2.2⟩
      · intro ⟨h1, h2, h3⟩
        rcases Nat.eq_or_lt_of_le h1 with hb | hb
        · exact hb ▸ List.mem_cons_self _ _
        · exact List.mem_cons_of_mem _
            ((ih (j + 1) b).mpr ⟨by omega, by omega, h3⟩)
    · rw [if_neg hj]
      constructor
      · intro hmem
        have := (ih (j + 1) b).mp hmem
        exact ⟨by omega, by omega, this.2.2⟩
      · intro ⟨h1, h2, h3⟩
        rcases Nat.eq_or_lt_of_le h1 with hb | hb
        · exact absurd (hb ▸ h3) hj
        · exact (ih (j + 1) b).mpr ⟨by omega, by omega, h3⟩

theorem scanIdx_nodup (ws : List ℕ) (cw : ℤ) :
    ∀ (len j : ℕ), (scanIdx ws cw len j).Nodup := by
  intro len
  induction len with
  | zero =>
    intro j
    rw [show scanIdx ws cw 0 j = [] from rfl]
    exact List.nodup_nil
  | succ len ih =>
    intro j
    rw [show scanIdx ws cw (len + 1) j =
      (if cw ≤ (ws.getD j 1 : ℤ) then j :: scanIdx ws cw len (j + 1)
      else scanIdx ws cw len (j + 1)) from rfl]
    by_cases hj : cw ≤ (ws.getD j 1 : ℤ)
    · rw [if_pos hj]
      refine List.nodup_cons.mpr ⟨?_, ih (j + 1)⟩
      intro hmem
      have := (scanIdx_mem ws cw len (j + 1) j).mp hmem
      omega
    · rw [if_neg hj]
      exact ih (j + 1)

theorem scanIdx_count (ws : List ℕ) (cw : ℤ) (len j b : ℕ) :
    (scanIdx ws cw len j).count b =
      if j ≤ b ∧ b < j + len ∧ cw ≤ (ws.getD b 1 : ℤ) then 1 else 0 := by
  by_cases hmem : b ∈ scanIdx ws cw len j
  · rw [List.count_eq_one_of_mem (scanIdx_nodup ws cw len j) hmem,
      if_pos ((scanIdx_mem ws cw len j b).mp hmem)]
  · rw [List.count_eq_zero_of_not_mem hmem, if_neg (by
      intro hc
      exact hmem ((scanIdx_mem ws cw len j b).mpr hc))]

theorem scanIdx_all (ws : List ℕ) (cw : ℤ) :
    ∀ (len j : ℕ), (∀ t, j ≤ t → t < j + len → cw ≤ (ws.getD t 1 : ℤ)) →
      scanIdx ws cw len j = List.range' j len := by
  intro len
  induction len with
  | zero => intro j _; rfl
  | succ len ih =>
    intro j hall
    rw [show scanIdx ws cw (len + 1) j =
      (if cw ≤ (ws.getD j 1 : ℤ) then j :: scanIdx ws cw len (j + 1)
      else scanIdx ws cw len (j + 1)) from rfl]
    rw [if_pos (hall j (le_refl j) (by omega))]
    rw [ih (j + 1) (fun t h1 h2 => hall t (by omega) (by omega))]
    rfl

theorem scanIdx_nil_iff (ws : List ℕ) (cw : ℤ) (len j : ℕ) :
    scanIdx ws cw len j = [] ↔
      ∀ t, j ≤ t → t < j + len → ¬ (cw ≤ (ws.getD t 1 : ℤ)) := by
  constructor
  · intro h t h1 h2 hc
    have : t ∈ scanIdx ws cw len j :=
      (scanIdx_mem ws cw len j t).mpr ⟨h1, h2, hc⟩
    rw [h] at this
    simp at this
  · intro h
    rw [List.eq_nil_iff_forall_not_mem]
    intro b hb
    obtain ⟨h1, h2, h3⟩ := (scanIdx_mem ws cw len j b).mp hb
    exact h b h1 h2 h3

theorem scanIdx_le_last (ws : List ℕ) (cw : ℤ) :
    ∀ (len j : ℕ), ∀ b ∈ scanIdx ws cw len j,
      b ≤ lastD (scanIdx ws cw len j) 0 := by
  intro len
  induction len with
  | zero =>
    intro j b hb
    rw [show scanIdx ws cw 0 j = [] from rfl] at hb
    simp at hb
  | succ len ih =>
    intro j b hb
    rw [show scanIdx ws cw (len + 1) j =
      (if cw ≤ (ws.getD j 1 : ℤ) then j :: scanIdx ws cw len (j + 1)
      else scanIdx ws cw len (j + 1)) from rfl] at hb ⊢
    by_cases hj : cw ≤ (ws.getD j 1 : ℤ)
    · rw [if_pos hj] at hb ⊢
      rw [lastD_cons]
      by_cases hnil : scanIdx ws cw len (j + 1) = []
      · rw [hnil]
        rw [hnil] at hb
        rcases List.mem_cons.mp hb with hb | hb
        · rw [hb]; rfl
        · simp at hb
      · rw [lastD_ne_nil _ j 0 hnil]
        rcases List.mem_cons.mp hb with hb | hb
        · have hlm := lastD_mem _ 0 hnil
          have := (scanIdx_mem ws cw len (j + 1) _).mp hlm
          omega
        · exact ih (j + 1) b hb
    · rw [if_neg hj] at hb ⊢
      exact ih (j + 1) b hb

end WeightedRoundRobin

namespace WeightedRoundRobin

theorem run_succ (ws : List ℕ) (σ : ℕ × ℤ) (k : ℕ) :
    run ws σ (k + 1) =
      ((wrrStep ws σ).1 :: (run ws (wrrStep ws σ) k).1,
        (run ws (wrrStep ws σ) k).2) := rfl

theorem run_append (ws : List ℕ) :
    ∀ (a b : ℕ) (σ : ℕ × ℤ),
      run ws σ (a + b) =
        ((run ws σ a).1 ++ (run ws (run ws σ a).2 b).1,
          (run ws (run ws σ a).2 b).2) := by
  intro a
  induction a with
  | zero =>
    intro b σ
    rw [show (0 : ℕ) + b = b from by omega]
    rfl
  | succ a ih =>
    intro b σ
    rw [show a + 1 + b = (a + b) + 1 from by omega, run_succ,
      ih b (wrrStep ws σ), run_succ]
    rfl

theorem run_congr (ws : List ℕ) (σ σ2 : ℕ × ℤ)
    (h : wrrStep ws σ = wrrStep ws σ2) (k : ℕ) :
    run ws σ (k + 1) = run ws σ2 (k + 1) := by
  rw [run_succ, run_succ, h]

/-- The scan of the remainder of a round, driven by `wrrStep`. -/
theorem run_chunk (ws : List ℕ) (hne : ws ≠ [])
    (hw : ∀ w ∈ ws, 1 ≤ w) :
    ∀ (len x : ℕ) (cw : ℤ), x + 1 + len = ws.length →
      run ws (x, cw) (scanIdx ws cw len (x + 1)).length
        = (scanIdx ws cw len (x + 1),
          (lastD (scanIdx ws cw len (x + 1)) x, cw)) := by
  intro len
  induction len with
  | zero => intro x cw _; rfl
  | succ len ih =>
    intro x cw hx
    have hx1 : x + 1 < ws.length := by omega
    rw [show scanIdx ws cw (len + 1) (x + 1) =
      (if cw ≤ (ws.getD (x + 1) 1 : ℤ) then
        (x + 1) :: scanIdx ws cw len (x + 2)
      else scanIdx ws cw len (x + 2)) from rfl]
    by_cases hsel : cw ≤ (ws.getD (x + 1) 1 : ℤ)
    · rw [if_pos hsel]
      have hstep := step_select ws hne hw x cw hx1 hsel
      have ihx := ih (x + 1) cw (by omega)
      rw [show x + 1 + 1 = x + 2 from rfl] at ihx
      rw [show ((x + 1) :: scanIdx ws cw len (x + 2)).length
        = (scanIdx ws cw len (x + 2)).length + 1 from by simp]
      rw [run_succ, hstep, ihx, lastD_cons]
    · rw [if_neg hsel]
      have hstep := step_skip ws hne hw x cw hx1 (by omega)
      have ihx := ih (x + 1) cw (by omega)
      rw [show x + 1 + 1 = x + 2 from rfl] at ihx
      by_cases hnil : scanIdx ws cw len (x + 2) = []
      · rw [hnil]
        rfl
      · have hpos : 0 < (scanIdx ws cw len (x + 2)).length :=
          List.length_pos.mpr hnil
        obtain ⟨m, hm⟩ : ∃ m, (scanIdx ws cw len (x + 2)).length = m + 1
          := ⟨(scanIdx ws cw len (x + 2)).length - 1, by omega⟩
        rw [hm, run_congr ws (x, cw) (x + 1, cw) hstep m, ← hm, ihx,
          lastD_ne_nil _ (x + 1) x hnil]

/-- One full wrapped round at the reset weight. -/
theorem run_wrap (ws : List ℕ) (hne : ws ≠ [])
    (hw : ∀ w ∈ ws, 1 ≤ w) (x : ℕ) (cw : ℤ) (hx : x < ws.length)
    (hcw : cw ≤ (max_weight ws : ℤ))
    (hmiss : scanIdx ws cw (ws.length - 1 - x) (x + 1) = []) :
    run ws (x, cw) (scanIdx ws (resetCw ws cw) ws.length 0).length
      = (scanIdx ws (resetCw ws cw) ws.length 0,
        (lastD (scanIdx ws (resetCw ws cw) ws.length 0) 0,
          resetCw ws cw)) := by
  have hn : 0 < ws.length := List.length_pos.mpr hne
  -- skip to the end of the current round
  have hchain : ∀ (len x2 : ℕ), x2 + 1 + len = ws.length →
      scanIdx ws cw len (x2 + 1) = [] →
      wrrStep ws (x2, cw) = wrrStep ws (ws.length - 1, cw) := by
    intro len
    induction len with
    | zero => intro x2 h _; rw [show x2 = ws.length - 1 from by omega]
    | succ len ih =>
      intro x2 h hm
      rw [show scanIdx ws cw (len + 1) (x2 + 1) =
        (if cw ≤ (ws.getD (x2 + 1) 1 : ℤ) then
          (x2 + 1) :: scanIdx ws cw len (x2 + 2)
        else scanIdx ws cw len (x2 + 2)) from rfl] at hm
      by_cases hsel : cw ≤ (ws.getD (x2 + 1) 1 : ℤ)
      · rw [if_pos hsel] at hm
        exact absurd hm (by simp)
      · rw [if_neg hsel] at hm
        rw [step_skip ws hne hw x2 cw (by omega) (by omega)]
        exact ih (x2 + 1) (by omega)
          (by rw [show x2 + 1 + 1 = x2 + 2 from rfl]; exact hm)
  have hstep0 : wrrStep ws (x, cw) = wrrStep ws (ws.length - 1, cw) :=
    hchain (ws.length - 1 - x) x (by omega) hmiss
  -- the wrapped round is non-empty: the max-weight index passes
  obtain ⟨jM, hjM, hjMv⟩ := exists_max_idx ws hne hw
  have hR : jM ∈ scanIdx ws (resetCw ws cw) ws.length 0 := by
    refine (scanIdx_mem ws (resetCw ws cw) ws.length 0 jM).mpr
      ⟨by omega, by omega, ?_⟩
    rw [hjMv]
    exact resetCw_le_max ws hne hw cw hcw
  have hRne : scanIdx ws (resetCw ws cw) ws.length 0 ≠ [] := by
    intro hc
    rw [hc] at hR
    simp at hR
  -- unfold the round at position 0
  rw [show scanIdx ws (resetCw ws cw) ws.length 0 =
    (if (resetCw ws cw) ≤ (ws.getD 0 1 : ℤ) then
      0 :: scanIdx ws (resetCw ws cw) (ws.length - 1) 1
    else scanIdx ws (resetCw ws cw) (ws.length - 1) 1) from by
      rw [show ws.length = (ws.length - 1) + 1 from by omega]
      rfl]
  by_cases hsel0 : (resetCw ws cw) ≤ (ws.getD 0 1 : ℤ)
  · rw [if_pos hsel0]
    have hstep := step_wrap_select ws hne hw cw hcw hsel0
    have hchunk := run_chunk ws hne hw (ws.length - 1) 0 (resetCw ws cw)
      (by omega)
    rw [show (0 : ℕ) + 1 = 1 from rfl] at hchunk
    rw [show (0 :: scanIdx ws (resetCw ws cw) (ws.length - 1) 1).length
      = (scanIdx ws (resetCw ws cw) (ws.length - 1) 1).length + 1
      from by simp]
    rw [run_succ, hstep0, hstep, hchunk, lastD_cons]
  · rw [if_neg hsel0]
    have hstep := step_wrap_skip ws hne hw cw hcw (by omega)
    have hchunk := run_chunk ws hne hw (ws.length - 1) 0 (resetCw ws cw)
      (by omega)
    rw [show (0 : ℕ) + 1 = 1 from rfl] at hchunk
    have hRne2 : scanIdx ws (resetCw ws cw) (ws.length - 1) 1 ≠ [] := by
      rw [show scanIdx ws (resetCw ws cw) ws.length 0 =
        (if (resetCw ws cw) ≤ (ws.getD 0 1 : ℤ) then
          0 :: scanIdx ws (resetCw ws cw) (ws.length - 1) 1
        else scanIdx ws (resetCw ws cw) (ws.length - 1) 1) from by
          rw [show ws.length = (ws.length - 1) + 1 from by omega]
          rfl, if_neg hsel0] at hRne
      exact hRne
    have hpos : 0 < (scanIdx ws (resetCw ws cw) (ws.length - 1) 1).length
      := List.length_pos.mpr hRne2
    obtain ⟨m, hm⟩ : ∃ m,
        (scanIdx ws (resetCw ws cw) (ws.length - 1) 1).length = m + 1
      := ⟨(scanIdx ws (resetCw ws cw) (ws.length - 1) 1).length - 1,
        by omega⟩
    rw [hm, run_congr ws (x, cw) (0, resetCw ws cw)
      (hstep0.trans hstep) m, ← hm, hchunk,
      lastD_ne_nil _ 0 0 hRne2]

end WeightedRoundRobin

namespace WeightedRoundRobin

/-- The selections of one round at `current_weight = c·gcd`. -/
def roundN (ws : List ℕ) (c : ℕ) : List ℕ :=
  scanIdx ws ((c : ℤ) * (_gcd_list ws : ℤ)) ws.length 0

/-- The selections of the rounds `c, c-1, …, 1` in order. -/
def cyc (ws : List ℕ) : ℕ → List ℕ
  | 0 => []
  | c + 1 => roundN ws (c + 1) ++ cyc ws c

theorem gcd_dvd_getD (ws : List ℕ) (t : ℕ) (ht : t < ws.length) :
    _gcd_list ws ∣ ws.getD t 1 := by
  rw [List.getD_eq_getElem ws 1 ht]
  exact gcd_list_dvd ws _ (List.getElem_mem ht)

theorem gcd_le_getD (ws : List ℕ) (hw : ∀ w ∈ ws, 1 ≤ w) (t : ℕ)
    (ht : t < ws.length) : _gcd_list ws ≤ ws.getD t 1 :=
  Nat.le_of_dvd (by have := one_le_getD ws hw t ht; omega)
    (gcd_dvd_getD ws t ht)

theorem roundN_one (ws : List ℕ) (hw : ∀ w ∈ ws, 1 ≤ w) :
    roundN ws 1 = List.range' 0 ws.length := by
  unfold roundN
  apply scanIdx_all
  intro t _ ht
  have := gcd_le_getD ws hw t (by omega)
  push_cast
  omega

theorem range'_lastD :
    ∀ (len j d : ℕ), lastD (List.range' j len) d =
      if len = 0 then d else j + len - 1 := by
  intro len
  induction len with
  | zero => intro j d; rfl
  | succ len ih =>
    intro j d
    rw [show List.range' j (len + 1) = j :: List.range' (j + 1) len
      from rfl, lastD_cons, ih (j + 1) j]
    by_cases h0 : len = 0
    · rw [if_pos h0, if_neg (show ¬ (len + 1 = 0) from by omega)]
      omega
    · rw [if_neg h0, if_neg (show ¬ (len + 1 = 0) from by omega)]
      omega

theorem roundN_nonempty (ws : List ℕ) (hne : ws ≠ [])
    (hw : ∀ w ∈ ws, 1 ≤ w) (c : ℕ)
    (hc : ((c : ℤ) * (_gcd_list ws : ℤ)) ≤ (max_weight ws : ℤ)) :
    roundN ws c ≠ [] := by
  obtain ⟨jM, hjM, hjMv⟩ := exists_max_idx ws hne hw
  intro h
  have : jM ∈ roundN ws c := by
    refine (scanIdx_mem ws _ ws.length 0 jM).mpr ⟨by omega, by omega, ?_⟩
    rw [hjMv]
    exact hc
  rw [h] at this
  simp at this

theorem resetCw_roundStep (ws : List ℕ) (hne : ws ≠ [])
    (hw : ∀ w ∈ ws, 1 ≤ w) (c : ℕ) (hc : 1 ≤ c) :
    resetCw ws (((c + 1 : ℕ) : ℤ) * (_gcd_list ws : ℤ))
      = ((c : ℕ) : ℤ) * (_gcd_list ws : ℤ) := by
  have hg := gcd_list_pos ws hne hw
  unfold resetCw
  rw [if_neg (by
    push_cast
    intro hcon
    nlinarith [hcon])]
  push_cast
  ring

/-- Running the rounds `c-1, …, 1` from the tail state of round `c`
lands on the tail state of round `1`, which is `(len − 1, gcd)`. -/
theorem run_rounds (ws : List ℕ) (hne : ws ≠ [])
    (hw : ∀ w ∈ ws, 1 ≤ w) :
    ∀ (c : ℕ), 1 ≤ c →
      ((c : ℤ) * (_gcd_list ws : ℤ)) ≤ (max_weight ws : ℤ) →
      run ws (lastD (roundN ws c) 0, (c : ℤ) * (_gcd_list ws : ℤ))
          (cyc ws (c - 1)).length
        = (cyc ws (c - 1), (ws.length - 1, (_gcd_list ws : ℤ))) := by
  have hn : 0 < ws.length := List.length_pos.mpr hne
  intro c
  induction c with
  | zero => intro hc; omega
  | succ c ih =>
    intro _ hcM
    rcases Nat.eq_zero_or_pos c with hc0 | hcpos
    · subst hc0
      rw [show (1 : ℕ) - 1 = 0 from rfl, show cyc ws 0 = [] from rfl]
      have hl : lastD (roundN ws 1) 0 = ws.length - 1 := by
        rw [roundN_one ws hw, range'_lastD ws.length 0 0,
          if_neg (by omega)]
        omega
      rw [hl]
      rw [show ((1 : ℕ) : ℤ) * (_gcd_list ws : ℤ) = (_gcd_list ws : ℤ)
        from by push_cast; ring]
      rfl
    · set x := lastD (roundN ws (c + 1)) 0 with hxdef
      have hxmem : x ∈ roundN ws (c + 1) :=
        lastD_mem _ 0 (roundN_nonempty ws hne hw (c + 1) hcM)
      have hx : x < ws.length := by
        have := ((scanIdx_mem ws _ ws.length 0 x).mp hxmem).2.1
        omega
      have hmiss : scanIdx ws (((c + 1 : ℕ) : ℤ) * (_gcd_list ws : ℤ))
          (ws.length - 1 - x) (x + 1) = [] := by
        rw [scanIdx_nil_iff]
        intro t h1 h2 hc
        have htm : t ∈ roundN ws (c + 1) :=
          (scanIdx_mem ws _ ws.length 0 t).mpr ⟨by omega, by omega, hc⟩
        have h3 : t ≤ x := scanIdx_le_last ws _ ws.length 0 t htm
        omega
      have hwrap := run_wrap ws hne hw x _ hx hcM hmiss
      rw [resetCw_roundStep ws hne hw c hcpos] at hwrap
      have hround : scanIdx ws ((c : ℤ) * (_gcd_list ws : ℤ)) ws.length 0
          = roundN ws c := rfl
      rw [hround] at hwrap
      have hcM2 : ((c : ℤ) * (_gcd_list ws : ℤ)) ≤ (max_weight ws : ℤ)
        := by
        have hg := gcd_list_pos ws hne hw
        have : ((c : ℤ) * (_gcd_list ws : ℤ)) ≤
            (((c + 1 : ℕ) : ℤ) * (_gcd_list ws : ℤ)) := by
          push_cast
          nlinarith
        omega
      have hih := ih hcpos hcM2
      rw [show cyc ws (c + 1 - 1) = roundN ws c ++ cyc ws (c - 1) from by
        rw [show c + 1 - 1 = c from rfl,
          show c = (c - 1) + 1 from by omega]
        rfl]
      rw [List.length_append, run_append, hwrap, hih]

end WeightedRoundRobin

namespace WeightedRoundRobin

/-- The number of rounds in one cycle: `max_weight / gcd_weight`. -/
def mgw (ws : List ℕ) : ℕ := max_weight ws / _gcd_list ws

theorem mgw_mul_gcd (ws : List ℕ) (hne : ws ≠ [])
    (hw : ∀ w ∈ ws, 1 ≤ w) :
    ((mgw ws : ℕ) : ℤ) * (_gcd_list ws : ℤ) = (max_weight ws : ℤ) := by
  have := Nat.div_mul_cancel (gcd_dvd_max_weight ws hne hw)
  exact_mod_cast this

theorem mgw_pos (ws : List ℕ) (hne : ws ≠ []) (hw : ∀ w ∈ ws, 1 ≤ w) :
    1 ≤ mgw ws := by
  have hg := gcd_list_pos ws hne hw
  have hgM := gcd_le_max_weight ws hne hw
  exact (Nat.one_le_div_iff hg).mpr hgM

theorem resetCw_zero (ws : List ℕ) (hne : ws ≠ [])
    (hw : ∀ w ∈ ws, 1 ≤ w) :
    resetCw ws 0 = (max_weight ws : ℤ) := by
  have hg := gcd_list_pos ws hne hw
  unfold resetCw
  rw [if_pos (by omega)]

theorem resetCw_gcd (ws : List ℕ) :
    resetCw ws (_gcd_list ws : ℤ) = (max_weight ws : ℤ) := by
  unfold resetCw
  rw [if_pos (by omega)]

/-- One full cycle of rounds `mgw, …, 1` starting at the pre-wrap state
`(len − 1, cw)` whose wrap resets to `max_weight`. -/
theorem run_full_cycle (ws : List ℕ) (hne : ws ≠ [])
    (hw : ∀ w ∈ ws, 1 ≤ w) (cw : ℤ) (hcw : cw ≤ (max_weight ws : ℤ))
    (hreset : resetCw ws cw = (max_weight ws : ℤ)) :
    run ws (ws.length - 1, cw) (cyc ws (mgw ws)).length
      = (cyc ws (mgw ws), (ws.length - 1, (_gcd_list ws : ℤ))) := by
  have hn : 0 < ws.length := List.length_pos.mpr hne
  have hmiss : scanIdx ws cw (ws.length - 1 - (ws.length - 1))
      (ws.length - 1 + 1) = [] := by
    rw [show ws.length - 1 - (ws.length - 1) = 0 from by omega]
    rfl
  have hwrap := run_wrap ws hne hw (ws.length - 1) cw (by omega) hcw hmiss
  rw [hreset, ← mgw_mul_gcd ws hne hw] at hwrap
  have hround : scanIdx ws ((mgw ws : ℤ) * (_gcd_list ws : ℤ))
      ws.length 0 = roundN ws (mgw ws) := rfl
  rw [hround] at hwrap
  have hih := run_rounds ws hne hw (mgw ws) (mgw_pos ws hne hw)
    (by rw [mgw_mul_gcd ws hne hw])
  rw [show cyc ws (mgw ws)
    = roundN ws (mgw ws) ++ cyc ws (mgw ws - 1) from by
    rw [show mgw ws = (mgw ws - 1) + 1 from by
      have := mgw_pos ws hne hw; omega]
    rw [show (mgw ws - 1) + 1 - 1 = mgw ws - 1 from by omega]
    rfl]
  rw [List.length_append, run_append, hwrap, hih]

/-- The initial segment: from the fresh state `(0, 0)` the first
`len − 1` selections are positions `1, …, len − 1` in order, ending at
`(len − 1, 0)`. -/
theorem run_init (ws : List ℕ) (hne : ws ≠ [])
    (hw : ∀ w ∈ ws, 1 ≤ w) :
    run ws (0, 0) (ws.length - 1)
      = (List.range' 1 (ws.length - 1), (ws.length - 1, 0)) := by
  have hn : 0 < ws.length := List.length_pos.mpr hne
  have hall : scanIdx ws 0 (ws.length - 1) 1
      = List.range' 1 (ws.length - 1) := by
    apply scanIdx_all
    intro t _ _
    exact_mod_cast Int.ofNat_nonneg _
  have hchunk := run_chunk ws hne hw (ws.length - 1) 0 0 (by omega)
  rw [show (0 : ℕ) + 1 = 1 from rfl, hall] at hchunk
  have hlen : (List.range' 1 (ws.length - 1)).length = ws.length - 1 :=
    by simp
  have hlast : lastD (List.range' 1 (ws.length - 1)) 0 = ws.length - 1
    := by
    rw [range'_lastD (ws.length - 1) 1 0]
    by_cases h1 : ws.length - 1 = 0
    · rw [if_pos h1]
      omega
    · rw [if_neg h1]
      omega
  rw [hlen, hlast] at hchunk
  exact hchunk

/-- The machine state after `k` selections from the fresh state. -/
def stateAt (ws : List ℕ) (k : ℕ) : ℕ × ℤ := (run ws (0, 0) k).2

/-- The position selected by the `(k+1)`-st call. -/
def selSeq (ws : List ℕ) (k : ℕ) : ℕ := (stateAt ws (k + 1)).1

theorem stateAt_add (ws : List ℕ) (a b : ℕ) :
    stateAt ws (a + b) = (run ws (stateAt ws a) b).2 := by
  unfold stateAt
  rw [run_append]

theorem run_outputs_getD (ws : List ℕ) :
    ∀ (m : ℕ) (σ : ℕ × ℤ) (k : ℕ), k < m →
      ((run ws σ m).1).getD k 0 = ((run ws σ (k + 1)).2).1 := by
  intro m
  induction m with
  | zero => intro σ k hk; omega
  | succ m ih =>
    intro σ k hk
    rw [run_succ]
    cases k with
    | zero => rfl
    | succ k =>
      rw [show ((wrrStep ws σ).1 :: (run ws (wrrStep ws σ) m).1).getD
        (k + 1) 0 = ((run ws (wrrStep ws σ) m).1).getD k 0 from rfl]
      rw [ih (wrrStep ws σ) k (by omega)]
      rfl

theorem selSeq_eq_run_getD (ws : List ℕ) (m k : ℕ) (hk : k < m) :
    selSeq ws k = ((run ws (0, 0) m).1).getD k 0 := by
  rw [run_outputs_getD ws m (0, 0) k hk]
  rfl

end WeightedRoundRobin

namespace WeightedRoundRobin

/-- The state after `m` selections from the recurring anchor state
`(len − 1, gcd)`. -/
def tau (ws : List ℕ) (m : ℕ) : ℕ × ℤ :=
  (run ws (ws.length - 1, (_gcd_list ws : ℤ)) m).2

theorem gcd_cast_le_max (ws : List ℕ) (hne : ws ≠ [])
    (hw : ∀ w ∈ ws, 1 ≤ w) :
    ((_gcd_list ws : ℕ) : ℤ) ≤ (max_weight ws : ℤ) := by
  exact_mod_cast gcd_le_max_weight ws hne hw

theorem tau_cycle (ws : List ℕ) (hne : ws ≠ []) (hw : ∀ w ∈ ws, 1 ≤ w) :
    tau ws (cyc ws (mgw ws)).length
      = (ws.length - 1, (_gcd_list ws : ℤ)) := by
  unfold tau
  rw [run_full_cycle ws hne hw (_gcd_list ws : ℤ)
    (gcd_cast_le_max ws hne hw) (resetCw_gcd ws)]

theorem tau_add_cycle (ws : List ℕ) (hne : ws ≠ [])
    (hw : ∀ w ∈ ws, 1 ≤ w) (m : ℕ) :
    tau ws ((cyc ws (mgw ws)).length + m) = tau ws m := by
  unfold tau
  rw [run_append]
  rw [show (run ws (ws.length - 1, (_gcd_list ws : ℤ))
      (cyc ws (mgw ws)).length).2
    = (ws.length - 1, (_gcd_list ws : ℤ)) from by
    rw [run_full_cycle ws hne hw (_gcd_list ws : ℤ)
      (gcd_cast_le_max ws hne hw) (resetCw_gcd ws)]]

/-- The fresh-state prefix and the recurring cycle take the same first
step off the pre-wrap index: both wraps reset to `max_weight`. -/
theorem step_init_eq (ws : List ℕ) (hne : ws ≠ [])
    (hw : ∀ w ∈ ws, 1 ≤ w) :
    wrrStep ws (ws.length - 1, (0 : ℤ))
      = wrrStep ws (ws.length - 1, (_gcd_list ws : ℤ)) := by
  have h0M : (0 : ℤ) ≤ (max_weight ws : ℤ) := by
    exact_mod_cast Int.ofNat_nonneg _
  by_cases hsel : (max_weight ws : ℤ) ≤ (ws.getD 0 1 : ℤ)
  · rw [step_wrap_select ws hne hw 0 h0M
      (by rw [resetCw_zero ws hne hw]; exact hsel)]
    rw [step_wrap_select ws hne hw (_gcd_list ws : ℤ)
      (gcd_cast_le_max ws hne hw)
      (by rw [resetCw_gcd ws]; exact hsel)]
    rw [resetCw_zero ws hne hw, resetCw_gcd ws]
  · rw [step_wrap_skip ws hne hw 0 h0M
      (by rw [resetCw_zero ws hne hw]; omega)]
    rw [step_wrap_skip ws hne hw (_gcd_list ws : ℤ)
      (gcd_cast_le_max ws hne hw)
      (by rw [resetCw_gcd ws]; omega)]
    rw [resetCw_zero ws hne hw, resetCw_gcd ws]

theorem stateAt_tail (ws : List ℕ) (hne : ws ≠ [])
    (hw : ∀ w ∈ ws, 1 ≤ w) (m : ℕ) (hm : 1 ≤ m) :
    stateAt ws (ws.length - 1 + m) = tau ws m := by
  obtain ⟨m2, rfl⟩ : ∃ m2, m = m2 + 1 := ⟨m - 1, by omega⟩
  rw [stateAt_add]
  have hinit : stateAt ws (ws.length - 1) = (ws.length - 1, 0) := by
    unfold stateAt
    rw [run_init ws hne hw]
  rw [hinit]
  unfold tau
  rw [run_congr ws (ws.length - 1, 0)
    (ws.length - 1, (_gcd_list ws : ℤ)) (step_init_eq ws hne hw) m2]

theorem cyc_split (ws : List ℕ) :
    ∀ (c : ℕ), 1 ≤ c → ∃ front, cyc ws c = front ++ roundN ws 1 := by
  intro c
  induction c with
  | zero => intro h; omega
  | succ c ih =>
    intro _
    rcases Nat.eq_zero_or_pos c with hc0 | hcpos
    · subst hc0
      refine ⟨[], ?_⟩
      rw [show cyc ws 1 = roundN ws 1 ++ cyc ws 0 from rfl,
        show cyc ws 0 = [] from rfl, List.append_nil, List.nil_append]
    · obtain ⟨front, hfront⟩ := ih hcpos
      refine ⟨roundN ws (c + 1) ++ front, ?_⟩
      rw [show cyc ws (c + 1) = roundN ws (c + 1) ++ cyc ws c from rfl,
        hfront, List.append_assoc]

theorem roundN_one_cons (ws : List ℕ) (hne : ws ≠ [])
    (hw : ∀ w ∈ ws, 1 ≤ w) :
    roundN ws 1 = 0 :: List.range' 1 (ws.length - 1) := by
  have hn : 0 < ws.length := List.length_pos.mpr hne
  rw [roundN_one ws hw, show ws.length = (ws.length - 1) + 1 from by omega]
  rfl

/-- The global structure of the selection trace: the first
`len − 1 + |cyc|` selections are the initial segment followed by one
full cycle, and the trace also factors as a `|cyc|`-length block
followed by a copy of the initial segment. -/
theorem run_global (ws : List ℕ) (hne : ws ≠ [])
    (hw : ∀ w ∈ ws, 1 ≤ w) :
    run ws (0, 0) (ws.length - 1 + (cyc ws (mgw ws)).length)
      = (List.range' 1 (ws.length - 1) ++ cyc ws (mgw ws),
        (ws.length - 1, (_gcd_list ws : ℤ))) := by
  rw [run_append, run_init ws hne hw]
  have h0M : (0 : ℤ) ≤ (max_weight ws : ℤ) := by
    exact_mod_cast Int.ofNat_nonneg _
  rw [run_full_cycle ws hne hw 0 h0M (resetCw_zero ws hne hw)]

theorem selSeq_periodic (ws : List ℕ) (hne : ws ≠ [])
    (hw : ∀ w ∈ ws, 1 ≤ w) (k : ℕ) :
    selSeq ws (k + (cyc ws (mgw ws)).length) = selSeq ws k := by
  have hn : 0 < ws.length := List.length_pos.mpr hne
  by_cases hk : ws.length - 1 ≤ k
  · obtain ⟨t, ht⟩ : ∃ t, k + 1 = (ws.length - 1) + (t + 1) :=
      ⟨k - (ws.length - 1), by omega⟩
    unfold selSeq
    rw [show k + (cyc ws (mgw ws)).length + 1
      = (ws.length - 1) + ((t + 1) + (cyc ws (mgw ws)).length) from by
        omega]
    rw [ht]
    rw [stateAt_tail ws hne hw ((t + 1) + (cyc ws (mgw ws)).length)
      (by omega)]
    rw [stateAt_tail ws hne hw (t + 1) (by omega)]
    rw [show (t + 1) + (cyc ws (mgw ws)).length
      = (cyc ws (mgw ws)).length + (t + 1) from by omega]
    rw [tau_add_cycle ws hne hw (t + 1)]
  · push_neg at hk
    obtain ⟨front, hfront⟩ := cyc_split ws (mgw ws) (mgw_pos ws hne hw)
    set I := List.range' 1 (ws.length - 1) with hI
    have hO := run_global ws hne hw
    have hIlen : I.length = ws.length - 1 := by
      rw [hI]; simp
    have hclen : (cyc ws (mgw ws)).length = front.length + ws.length := by
      rw [hfront, List.length_append, roundN_one_cons ws hne hw]
      simp
      omega
    have hsplit : I ++ cyc ws (mgw ws)
        = (I ++ front ++ [0]) ++ I := by
      rw [hfront, roundN_one_cons ws hne hw, ← hI]
      rw [show (0 : ℕ) :: I = [0] ++ I from rfl]
      simp [List.append_assoc]
    have hWlen : (I ++ front ++ [0]).length = (cyc ws (mgw ws)).length
      := by
      simp [hclen, hIlen]
      omega
    have h1 : selSeq ws k
        = ((run ws (0, 0)
          (ws.length - 1 + (cyc ws (mgw ws)).length)).1).getD k 0 := by
      apply selSeq_eq_run_getD
      omega
    have h2 : selSeq ws (k + (cyc ws (mgw ws)).length)
        = ((run ws (0, 0)
          (ws.length - 1 + (cyc ws (mgw ws)).length)).1).getD
            (k + (cyc ws (mgw ws)).length) 0 := by
      apply selSeq_eq_run_getD
      omega
    have hfst : (run ws (0, 0)
        (ws.length - 1 + (cyc ws (mgw ws)).length)).1
      = I ++ cyc ws (mgw ws) := by rw [hO]
    rw [h1, h2, hfst]
    conv_lhs => rw [hsplit]
    rw [List.getD_append_right (I ++ front ++ [0]) I 0
      (k + (cyc ws (mgw ws)).length) (by omega)]
    rw [hWlen, Nat.add_sub_cancel]
    rw [List.getD_append I (cyc ws (mgw ws)) 0 k (by omega)]

end WeightedRoundRobin

namespace WeightedRoundRobin

theorem count_roundN (ws : List ℕ) (hne : ws ≠ [])
    (hw : ∀ w ∈ ws, 1 ≤ w) (b : ℕ) (hb : b < ws.length) (c : ℕ) :
    (roundN ws c).count b =
      if c ≤ ws.getD b 1 / _gcd_list ws then 1 else 0 := by
  have hg := gcd_list_pos ws hne hw
  have hkg : (ws.getD b 1 / _gcd_list ws) * _gcd_list ws = ws.getD b 1 :=
    Nat.div_mul_cancel (gcd_dvd_getD ws b hb)
  unfold roundN
  rw [scanIdx_count ws _ ws.length 0 b]
  by_cases hc : c ≤ ws.getD b 1 / _gcd_list ws
  · rw [if_pos hc, if_pos ?_]
    refine ⟨by omega, by omega, ?_⟩
    have : c * _gcd_list ws ≤ ws.getD b 1 := by
      calc c * _gcd_list ws
          ≤ (ws.getD b 1 / _gcd_list ws) * _gcd_list ws :=
            Nat.mul_le_mul_right _ hc
        _ = ws.getD b 1 := hkg
    exact_mod_cast this
  · rw [if_neg hc, if_neg ?_]
    intro hcon
    obtain ⟨_, _, h3⟩ := hcon
    have h4 : c * _gcd_list ws ≤ ws.getD b 1 := by exact_mod_cast h3
    apply hc
    rw [← hkg] at h4
    exact Nat.le_of_mul_le_mul_right h4 hg

theorem count_cyc (ws : List ℕ) (hne : ws ≠ [])
    (hw : ∀ w ∈ ws, 1 ≤ w) (b : ℕ) (hb : b < ws.length) :
    ∀ (c : ℕ), (cyc ws c).count b
      = min c (ws.getD b 1 / _gcd_list ws) := by
  intro c
  induction c with
  | zero => simp [cyc]
  | succ c ih =>
    rw [show cyc ws (c + 1) = roundN ws (c + 1) ++ cyc ws c from rfl,
      List.count_append, ih, count_roundN ws hne hw b hb (c + 1)]
    by_cases hc : c + 1 ≤ ws.getD b 1 / _gcd_list ws
    · rw [if_pos hc]
      omega
    · rw [if_neg hc]
      omega

theorem count_cyc_mgw (ws : List ℕ) (hne : ws ≠ [])
    (hw : ∀ w ∈ ws, 1 ≤ w) (b : ℕ) (hb : b < ws.length) :
    (cyc ws (mgw ws)).count b = ws.getD b 1 / _gcd_list ws := by
  rw [count_cyc ws hne hw b hb (mgw ws)]
  have h1 : ws.getD b 1 / _gcd_list ws ≤ mgw ws :=
    Nat.div_le_div_right (getD_le_max ws b hb)
  omega

theorem map_getD_range {d : ℕ} :
    ∀ (l : List ℕ), (List.range l.length).map (fun t => l.getD t d) = l
    := by
  intro l
  induction l with
  | nil => rfl
  | cons a l ih =>
    rw [show (a :: l).length = l.length + 1 from rfl,
      List.range_succ_eq_map, List.map_cons, List.map_map]
    rw [show ((fun t => (a :: l).getD t d) ∘ Nat.succ)
      = (fun t => l.getD t d) from rfl]
    rw [ih]
    rfl

theorem sum_map_add_distrib (f g : ℕ → ℕ) :
    ∀ (l : List ℕ), (l.map (fun x => f x + g x)).sum
      = (l.map f).sum + (l.map g).sum := by
  intro l
  induction l with
  | nil => rfl
  | cons a l ih =>
    simp only [List.map_cons, List.sum_cons, ih]
    omega

theorem sum_map_mul_const (f : ℕ → ℕ) (c : ℕ) :
    ∀ (l : List ℕ), (l.map (fun x => f x * c)).sum = (l.map f).sum * c
    := by
  intro l
  induction l with
  | nil => simp
  | cons a l ih =>
    simp only [List.map_cons, List.sum_cons, ih]
    ring

theorem sum_range_delta (a : ℕ) :
    ∀ (n : ℕ), ((List.range n).map
      (fun b => if b = a then 1 else 0)).sum = if a < n then 1 else 0
    := by
  intro n
  induction n with
  | zero => rw [if_neg (by omega)]; rfl
  | succ n ih =>
    rw [List.range_succ, List.map_append, List.sum_append, ih]
    by_cases ha : a < n
    · rw [if_pos ha, if_pos (by omega)]
      simp only [List.map_cons, List.map_nil, List.sum_cons,
        List.sum_nil]
      rw [if_neg (by omega)]
      omega
    · by_cases ha2 : a = n
      · rw [if_neg (by omega), if_pos (by omega)]
        simp only [List.map_cons, List.map_nil, List.sum_cons,
          List.sum_nil]
        rw [if_pos ha2.symm]
        omega
      · rw [if_neg (by omega), if_neg (by omega)]
        simp only [List.map_cons, List.map_nil, List.sum_cons,
          List.sum_nil]
        rw [if_neg (by omega)]
        omega

theorem length_eq_sum_counts (n : ℕ) :
    ∀ (l : List ℕ), (∀ x ∈ l, x < n) →
      ((List.range n).map (fun b => l.count b)).sum = l.length := by
  intro l
  induction l with
  | nil => intro _; simp
  | cons a l ih =>
    intro hmem
    have ha : a < n := hmem a (List.mem_cons_self a l)
    have hrest : ∀ x ∈ l, x < n :=
      fun x hx => hmem x (List.mem_cons_of_mem a hx)
    rw [show (fun b => (a :: l).count b)
      = (fun b => l.count b + if b = a then 1 else 0) from by
        funext b
        rw [List.count_cons]
        congr 1
        by_cases hba : b = a
        · rw [if_pos hba, if_pos (by simp only [beq_iff_eq]; omega)]
        · rw [if_neg hba, if_neg (by simp only [beq_iff_eq]; omega)]]
    rw [sum_map_add_distrib, ih hrest, sum_range_delta a n, if_pos ha]
    rfl

end WeightedRoundRobin

namespace WeightedRoundRobin

theorem period_pos (ws : List ℕ) (hne : ws ≠ [])
    (hw : ∀ w ∈ ws, 1 ≤ w) : 1 ≤ (cyc ws (mgw ws)).length := by
  obtain ⟨front, hfront⟩ := cyc_split ws (mgw ws) (mgw_pos ws hne hw)
  rw [hfront, roundN_one_cons ws hne hw]
  simp only [List.length_append, List.length_cons]
  omega

theorem window_zero_count (ws : List ℕ) (hne : ws ≠ [])
    (hw : ∀ w ∈ ws, 1 ≤ w) (b : ℕ) (hb : b < ws.length) :
    ((List.range (cyc ws (mgw ws)).length).map
      (fun t => selSeq ws t)).count b = ws.getD b 1 / _gcd_list ws := by
  have hn : 0 < ws.length := List.length_pos.mpr hne
  obtain ⟨front, hfront⟩ := cyc_split ws (mgw ws) (mgw_pos ws hne hw)
  set I := List.range' 1 (ws.length - 1) with hI
  set W := I ++ front ++ [0] with hW
  have hIlen : I.length = ws.length - 1 := by rw [hI]; simp
  have hclen : (cyc ws (mgw ws)).length = front.length + ws.length := by
    rw [hfront, List.length_append, roundN_one_cons ws hne hw]
    simp
    omega
  have hWlen : W.length = (cyc ws (mgw ws)).length := by
    rw [hW]
    simp [hclen, hIlen]
    omega
  have hsplit : I ++ cyc ws (mgw ws) = W ++ I := by
    rw [hW, hfront, roundN_one_cons ws hne hw, ← hI]
    rw [show (0 : ℕ) :: I = [0] ++ I from rfl]
    simp [List.append_assoc]
  have hsel : ∀ t, t < (cyc ws (mgw ws)).length →
      selSeq ws t = W.getD t 0 := by
    intro t ht
    rw [selSeq_eq_run_getD ws
      (ws.length - 1 + (cyc ws (mgw ws)).length) t (by omega)]
    rw [show (run ws (0, 0)
      (ws.length - 1 + (cyc ws (mgw ws)).length)).1
      = I ++ cyc ws (mgw ws) from by rw [run_global ws hne hw]]
    rw [hsplit]
    exact List.getD_append W I 0 t (by omega)
  have hwin : (List.range (cyc ws (mgw ws)).length).map
      (fun t => selSeq ws t) = W := by
    rw [List.map_congr_left (fun t ht => hsel t (List.mem_range.mp ht))]
    rw [← hWlen]
    exact map_getD_range W
  rw [hwin]
  have hcount := congrArg (fun l => l.count b) hsplit
  simp only [List.count_append] at hcount
  have hWc : W.count b = (cyc ws (mgw ws)).count b := by omega
  rw [hWc, count_cyc_mgw ws hne hw b hb]

theorem window_count_shift (ws : List ℕ) (hne : ws ≠ [])
    (hw : ∀ w ∈ ws, 1 ≤ w) (m b : ℕ) :
    ((List.range (cyc ws (mgw ws)).length).map
      (fun t => selSeq ws (m + 1 + t))).count b
    = ((List.range (cyc ws (mgw ws)).length).map
      (fun t => selSeq ws (m + t))).count b := by
  obtain ⟨q, hq⟩ : ∃ q, (cyc ws (mgw ws)).length = q + 1 :=
    ⟨(cyc ws (mgw ws)).length - 1, by
      have := period_pos ws hne hw
      omega⟩
  have hm : (List.range (cyc ws (mgw ws)).length).map
      (fun t => selSeq ws (m + t))
      = selSeq ws m
        :: (List.range q).map (fun t => selSeq ws (m + 1 + t)) := by
    rw [hq, List.range_succ_eq_map, List.map_cons, List.map_map]
    rw [show ((fun t => selSeq ws (m + t)) ∘ Nat.succ)
      = (fun t => selSeq ws (m + 1 + t)) from by
        funext t
        dsimp only [Function.comp]
        exact congrArg (selSeq ws) (by omega)]
    rfl
  have hm1 : (List.range (cyc ws (mgw ws)).length).map
      (fun t => selSeq ws (m + 1 + t))
      = (List.range q).map (fun t => selSeq ws (m + 1 + t))
        ++ [selSeq ws m] := by
    rw [hq, List.range_succ, List.map_append]
    rw [show (List.map (fun t => selSeq ws (m + 1 + t)) [q])
      = [selSeq ws m] from by
        show [selSeq ws (m + 1 + q)] = [selSeq ws m]
        rw [show m + 1 + q = m + (cyc ws (mgw ws)).length from by
          omega]
        rw [selSeq_periodic ws hne hw m]]
  rw [hm, hm1]
  exact (List.perm_append_singleton (selSeq ws m)
    ((List.range q).map (fun t => selSeq ws (m + 1 + t)))).count_eq b

theorem window_count (ws : List ℕ) (hne : ws ≠ [])
    (hw : ∀ w ∈ ws, 1 ≤ w) :
    ∀ (m b : ℕ), b < ws.length →
      ((List.range (cyc ws (mgw ws)).length).map
        (fun t => selSeq ws (m + t))).count b
      = ws.getD b 1 / _gcd_list ws := by
  intro m
  induction m with
  | zero =>
    intro b hb
    rw [show (fun t => selSeq ws (0 + t)) = (fun t => selSeq ws t)
      from by
        funext t
        exact congrArg (selSeq ws) (by omega)]
    exact window_zero_count ws hne hw b hb
  | succ m ih =>
    intro b hb
    rw [window_count_shift ws hne hw m b]
    exact ih b hb

theorem cyc_mem_lt (ws : List ℕ) :
    ∀ (c : ℕ) (b : ℕ), b ∈ cyc ws c → b < ws.length := by
  intro c
  induction c with
  | zero => intro b hb; exact absurd hb (List.not_mem_nil b)
  | succ c ih =>
    intro b hb
    rw [show cyc ws (c + 1) = roundN ws (c + 1) ++ cyc ws c from rfl]
      at hb
    rcases List.mem_append.mp hb with h | h
    · unfold roundN at h
      obtain ⟨_, h2, _⟩ := (scanIdx_mem ws _ ws.length 0 b).mp h
      omega
    · exact ih b h

theorem period_eq (ws : List ℕ) (hne : ws ≠ [])
    (hw : ∀ w ∈ ws, 1 ≤ w) :
    (cyc ws (mgw ws)).length = ws.sum / _gcd_list ws := by
  have hg := gcd_list_pos ws hne hw
  have h1 : ((List.range ws.length).map
      (fun b => (cyc ws (mgw ws)).count b)).sum
      = (cyc ws (mgw ws)).length :=
    length_eq_sum_counts ws.length (cyc ws (mgw ws))
      (fun b hb => cyc_mem_lt ws (mgw ws) b hb)
  have h2 : (List.range ws.length).map
      (fun b => (cyc ws (mgw ws)).count b)
      = (List.range ws.length).map
        (fun b => ws.getD b 1 / _gcd_list ws) :=
    List.map_congr_left (fun b hb =>
      count_cyc_mgw ws hne hw b (List.mem_range.mp hb))
  have h3 : ((List.range ws.length).map
        (fun b => ws.getD b 1 / _gcd_list ws)).sum * _gcd_list ws
      = ws.sum := by
    rw [← sum_map_mul_const (fun b => ws.getD b 1 / _gcd_list ws)
      (_gcd_list ws) (List.range ws.length)]
    rw [List.map_congr_left (fun b hb => Nat.div_mul_cancel
      (gcd_dvd_getD ws b (List.mem_range.mp hb)))]
    rw [map_getD_range ws]
  rw [← h2, h1] at h3
  exact (Nat.div_eq_of_eq_mul_left hg h3.symm).symm

end WeightedRoundRobin

namespace WeightedRoundRobin

theorem stateAt_succ (ws : List ℕ) (k : ℕ) :
    stateAt ws (k + 1) = wrrStep ws (stateAt ws k) := by
  rw [stateAt_add ws k 1]
  rfl

/-- C3: for a fixed non-empty backend list with positive registered
weights `ws` and `g = gcd ws`, the source `select_backend` traces the
sequence `selSeq` (each call from the `k`-th reachable state returns
position `selSeq ws k` and moves to the next state), and over ANY
window of `ws.sum / g` consecutive selections, position `b` is returned
exactly `ws.getD b 1 / g` times. -/
theorem C3_wrr_fairness (ws : List ℕ) (hne : ws ≠ [])
    (hw : ∀ w ∈ ws, 1 ≤ w) :
    (∀ k : ℕ, select_backend ws
        ⟨(stateAt ws k).1, (stateAt ws k).2⟩
        (stepFuel ws (stateAt ws k).2)
      = some (some (selSeq ws k),
          ⟨(stateAt ws (k + 1)).1, (stateAt ws (k + 1)).2⟩)) ∧
    (∀ (m b : ℕ), b < ws.length →
      ((List.range (ws.sum / _gcd_list ws)).map
        (fun t => selSeq ws (m + t))).count b
      = ws.getD b 1 / _gcd_list ws) := by
  constructor
  · intro k
    obtain ⟨j, cw2, hr, hj, hle⟩ :=
      loop_stepFuel_good ws hne hw (stateAt ws k).1 (stateAt ws k).2
    have hstep : stateAt ws (k + 1) = (j, cw2) := by
      rw [stateAt_succ ws k]
      rw [show stateAt ws k = ((stateAt ws k).1, (stateAt ws k).2)
        from rfl]
      exact wrrStep_eq ws hne hw (stateAt ws k).1 (stateAt ws k).2
        j cw2 (stepFuel ws (stateAt ws k).2) hr
    have hsel : selSeq ws k = j := by
      unfold selSeq
      rw [hstep]
    unfold select_backend
    rw [if_neg (by simp [List.isEmpty_iff, hne])]
    rw [show selectLoop ws (max_weight ws) (_gcd_list ws)
        (stepFuel ws (stateAt ws k).2)
        (WRRState.mk (stateAt ws k).1 (stateAt ws k).2).current_index
        (WRRState.mk (stateAt ws k).1 (stateAt ws k).2).current_weight
      = some (some j, j, cw2) from hr]
    dsimp only
    rw [hsel, hstep]
  · intro m b hb
    rw [← period_eq ws hne hw]
    exact window_count ws hne hw m b hb

theorem C3_wrr_witness :
    [2, 1] ≠ ([] : List ℕ) ∧ (∀ w ∈ [2, 1], 1 ≤ w) ∧
    ((List.range ([2, 1].sum / _gcd_list [2, 1])).map
        (fun t => selSeq [2, 1] (5 + t))).count 0 = 2 ∧
    ((List.range ([2, 1].sum / _gcd_list [2, 1])).map
        (fun t => selSeq [2, 1] (5 + t))).count 1 = 1 := by
  have h := C3_wrr_fairness [2, 1] (by decide) (by decide)
  refine ⟨by decide, by decide, ?_, ?_⟩
  · rw [h.2 5 0 (by decide)]
    decide
  · rw [h.2 5 1 (by decide)]
    decide

end WeightedRoundRobin
